import Mathlib

/-!
Verification of the Goodreads scraper repository (scraper.py, books_scraper.py,
url.py, url_scraper.py) against its natural-language specification.

The Python functions are shallowly embedded as Lean definitions: book records
become a structure, the JSON output file becomes an inductive file state,
HTTP responses and listing pages become explicit data fed to the loops, and
the current date consumed by dateutil's parser defaulting becomes an explicit
pair of arguments.
-/

namespace GoodreadsScraper

/-- A scraped book record. `title` is the deduplication key used by
`remove_duplicates` (scraper.py line 214); `payload` stands for all the
remaining fields of the record dictionary, which are carried along unmodified. -/
structure Book where
  title : String
  payload : Nat
deriving DecidableEq, Repr

/-- Loop body of `remove_duplicates` (scraper.py lines 210-217 and
books_scraper.py lines 133-147): `seen` is the set of titles already kept,
`unique_books` is the accumulator; a book whose title was seen is dropped,
otherwise it is appended and its title added to `seen`.  The Python `set` is
modelled as a list queried by membership. -/
def removeDupAux (seen : List String) : List Book → List Book
  | [] => []
  | b :: rest =>
      if b.title ∈ seen then removeDupAux seen rest
      else b :: removeDupAux (b.title :: seen) rest

/-- `remove_duplicates(data)` from scraper.py lines 210-217: scan `data` in
order, keep a book only when its title has not been seen before. -/
def remove_duplicates (data : List Book) : List Book :=
  removeDupAux [] data

/-- The state of the output path seen by `save_data_to_json` (scraper.py lines
227-240, books_scraper.py lines 166-185): the file is absent, holds a
well-formed JSON array of records, or holds text that fails to parse as
JSON. -/
inductive JsonFile (α : Type) where
  | absent : JsonFile α
  | wellFormed : List α → JsonFile α
  | malformed : JsonFile α
deriving DecidableEq, Repr

/-- `save_data_to_json(data, filename)` from scraper.py lines 227-240, as a
transformer of the file state.  Reading an absent file raises
`FileNotFoundError`, caught by the inner handler: prior state is `[]`.
Reading a malformed file raises `json.JSONDecodeError`, which is not a
`FileNotFoundError`: it escapes the inner handler and is caught by the outer
`except Exception`, which only logs — the write never happens and the file is
left unchanged.  Otherwise the new records are appended after the existing
ones (`existing_data + data`) and the merged array is written back. -/
def save_data_to_json {α : Type} (file : JsonFile α) (data : List α) : JsonFile α :=
  match file with
  | .absent => .wellFormed ([] ++ data)
  | .wellFormed existing => .wellFormed (existing ++ data)
  | .malformed => .malformed

/-- Outcome of one `requests.get` call inside `fetch_url_with_retries`
(scraper.py lines 89-100): a response with an HTTP status code and a body, or
a raised `requests.exceptions.RequestException`. -/
inductive FetchAttempt where
  | ok : Nat → String → FetchAttempt
  | exn : String → FetchAttempt
deriving DecidableEq, Repr

/-- The `for attempt in range(retries)` loop of `fetch_url_with_retries`
(scraper.py lines 90-98): attempt `i` performs the `i`-th request, whose
outcome is `attempts i`; the response is returned iff its status code is
exactly 200, an exception is logged and swallowed, and the loop moves on. -/
def fetchGo (attempts : Nat → FetchAttempt) : Nat → Nat → Option String
  | _, 0 => none
  | i, n + 1 =>
      match attempts i with
      | .ok status body => if status = 200 then some body else fetchGo attempts (i + 1) n
      | .exn _ => fetchGo attempts (i + 1) n

/-- `fetch_url_with_retries(url, retries)` from scraper.py lines 89-100 and
books_scraper.py lines 38-57: after the loop exhausts `retries` attempts
without a 200 response, the function logs and returns `None`. -/
def fetch_url_with_retries (attempts : Nat → FetchAttempt) (retries : Nat) : Option String :=
  fetchGo attempts 0 retries

/-- An attempt the specification counts as a failure: a transport-level
exception, or a response whose status is not a 2xx success status. -/
def attemptFails : FetchAttempt → Prop
  | .ok status _ => ¬(200 ≤ status ∧ status < 300)
  | .exn _ => True

/-- Outcome of fetching one listing page in `fetch_goodreads_urls` (url.py
lines 84-97, url_scraper.py lines 63-77): the request raised or returned a
non-200 status (`failed`), or the page was parsed and yielded the `href`
attributes of its `a.bookTitle` links (`page`). -/
inductive PageFetch where
  | failed : PageFetch
  | page : List String → PageFetch
deriving DecidableEq, Repr

/-- `"https://www.goodreads.com" + tag['href']` (url.py line 101,
url_scraper.py line 81). -/
def toFullUrl (href : String) : String :=
  "https://www.goodreads.com" ++ href

/-- The inner `for link in book_links` loop of `fetch_goodreads_urls`
(url_scraper.py lines 80-85, url.py lines 100-107): each href is resolved to
an absolute URL; a URL not yet collected is appended, and the loop breaks as
soon as the collection reaches `maxUrls`. -/
def addPageLinks (acc : List String) (maxUrls : Nat) : List String → List String
  | [] => acc
  | href :: rest =>
      let full := toFullUrl href
      if full ∈ acc then addPageLinks acc maxUrls rest
      else
        let acc' := acc ++ [full]
        if maxUrls ≤ acc'.length then acc' else addPageLinks acc' maxUrls rest

/-- The `while len(book_urls) < max_urls` page loop of `fetch_goodreads_urls`
(url.py lines 80-111, url_scraper.py lines 59-93): stop when the target count
is reached, when the fetch fails, or when the page yields zero links
(`if not book_links: break`); otherwise fold the page's links into the
collection and move to the next page.  Running out of modelled pages stands
for a failing fetch. -/
def fetchPagesLoop (maxUrls : Nat) : List PageFetch → List String → List String
  | [], acc => acc
  | p :: rest, acc =>
      if acc.length < maxUrls then
        match p with
        | .failed => acc
        | .page hrefs =>
            if hrefs.isEmpty then acc
            else fetchPagesLoop maxUrls rest (addPageLinks acc maxUrls hrefs)
      else acc

/-- `fetch_goodreads_urls(base_url, max_urls, delay)` from url.py lines 74-114
and url_scraper.py lines 37-96, over the sequence of listing-page outcomes. -/
def fetch_goodreads_urls (pages : List PageFetch) (maxUrls : Nat) : List String :=
  fetchPagesLoop maxUrls pages []

/-- Order-preserving first-occurrence deduplication of a URL stream, the
reference function used to state that the crawler returns URLs in first-seen
order. -/
def firstSeenAux (acc : List String) : List String → List String
  | [] => acc
  | u :: rest => if u ∈ acc then firstSeenAux acc rest else firstSeenAux (acc ++ [u]) rest

/-- The hrefs contributed by one page outcome. -/
def pageHrefs : PageFetch → List String
  | .failed => []
  | .page hrefs => hrefs

/-- All absolute URLs appearing on the modelled pages, in page order. -/
def allPageUrls (pages : List PageFetch) : List String :=
  ((pages.map pageHrefs).flatten).map toFullUrl

/-- The digit characters of Python's `\d` (ASCII), folded into the number they
denote, as `int` does on a string of digits. -/
def digitsVal (ds : List Char) : Nat :=
  ds.foldl (fun acc c => 10 * acc + (c.toNat - '0'.toNat)) 0

/-- `extract_int_from_text(text)` from scraper.py lines 111-112:
`int(re.sub(r"[^\d]", "", text)) if text else 0`.  An empty (falsy) text
yields 0; otherwise all non-digits are stripped and the remainder passed to
`int`, which raises `ValueError` on an empty string — modelled as `none`. -/
def extract_int_from_text (text : String) : Option Nat :=
  if text.isEmpty then some 0
  else
    let ds := text.toList.filter Char.isDigit
    if ds.isEmpty then none else some (digitsVal ds)

/-- `ratings_count = extract_int_from_text(ratings_tag.get_text()) if
ratings_tag else 0` (scraper.py lines 171-174): an absent element yields 0
without calling the extractor. -/
def ratings_count_field (tag : Option String) : Option Nat :=
  match tag with
  | none => some 0
  | some t => extract_int_from_text t

/-- The whitespace class of Python's `str.split()` and `\s` (ASCII range). -/
def isPySpace (c : Char) : Bool :=
  c = ' ' || c = '\t' || c = '\n' || c = '\r' || c = Char.ofNat 11 || c = Char.ofNat 12

/-- Split a character list at every separator character (runs between
separators, empty runs included). -/
def splitRuns (p : Char → Bool) (cs : List Char) : List (List Char) :=
  cs.foldr
    (fun c acc =>
      if p c then [] :: acc
      else
        match acc with
        | [] => [[c]]
        | t :: ts => (c :: t) :: ts)
    []

/-- Python `text.split()`: split on whitespace runs, discarding empty pieces. -/
def pySplitWs (s : String) : List String :=
  ((splitRuns isPySpace s.toList).filter (fun t => !t.isEmpty)).map
    (fun t => String.mk t)

/-- `text.split()[0]`, the first whitespace-delimited token. -/
def firstToken (text : String) : String :=
  (pySplitWs text).headD ""

/-- The guard of the `for div in isbn_divs` loop of `extract_isbn`
(scraper.py line 106): `text and text[:3].isdigit() and
len(text.split()[0]) >= 10`. -/
def firstTokenCond (text : String) : Bool :=
  !text.isEmpty && (text.toList.take 3).all Char.isDigit
    && decide (10 ≤ (firstToken text).length)

/-- Word characters for the regex `\b` boundary (ASCII `\w`). -/
def isWordChar (c : Char) : Bool :=
  c.isAlpha || c.isDigit || c = '_'

/-- Match of `\b97[89][\d]{10}\b` at the current position: thirteen digits
starting with 978 or 979, delimited by word boundaries (`before` is the
character preceding the position, if any). -/
def isbnMatchAt (before : Option Char) (cs : List Char) : Option String :=
  let tk := cs.take 13
  let okBefore := match before with
    | none => true
    | some c => !isWordChar c
  let okAfter := match cs.drop 13 with
    | [] => true
    | c :: _ => !isWordChar c
  if tk.length = 13 && tk.all Char.isDigit
      && (tk.take 3 == ['9', '7', '8'] || tk.take 3 == ['9', '7', '9'])
      && okBefore && okAfter then
    some (String.mk tk)
  else none

/-- `re.search(r'\b97[89][\d]{10}\b', html_text)` (scraper.py line 108):
leftmost match of the ISBN-13 pattern. -/
def isbnScan (before : Option Char) : List Char → Option String
  | [] => none
  | c :: rest =>
      match isbnMatchAt before (c :: rest) with
      | some tk => some tk
      | none => isbnScan (some c) rest

/-- `extract_isbn(soup, html_text)` from scraper.py lines 102-109: `blocks`
are the stripped texts of the matched supplementary-content divs, in document
order; the first block passing `firstTokenCond` yields its first token,
otherwise the raw markup is searched for a word-bounded 13-digit 978/979
sequence, otherwise "N/A". -/
def extract_isbn : List String → String → String
  | [], html => (isbnScan none html.toList).getD "N/A"
  | b :: rest, html =>
      if firstTokenCond b then firstToken b else extract_isbn rest html

/-- Written from the specification's words for comparison with the code
(claim: the kept token "starts with at least 10 digits"): the token begins
with ten or more digit characters. -/
def startsWithTenDigits (tok : String) : Bool :=
  decide (10 ≤ (tok.toList.takeWhile Char.isDigit).length)

/-- Drop an expected literal character sequence, failing when the text
differs. -/
def dropLit : List Char → List Char → Option (List Char)
  | [], cs => some cs
  | _ :: _, [] => none
  | l :: ls, c :: cs => if c = l then dropLit ls cs else none

/-- Greedy one-or-more character-class match (`\s+`, `[A-Za-z]+`); returns the
matched run and the rest. -/
def takeClass1 (p : Char → Bool) (cs : List Char) : Option (List Char × List Char) :=
  let tk := cs.takeWhile p
  if tk.isEmpty then none else some (tk, cs.drop tk.length)

/-- Exactly `n` digit characters (`\d{n}`); returns them and the rest. -/
def takeDigits (n : Nat) (cs : List Char) : Option (List Char × List Char) :=
  let tk := cs.take n
  if tk.length = n && tk.all Char.isDigit then some (tk, cs.drop n) else none

/-- `\d{w},\s+\d{4}` for a fixed day width `w`; returns the matched text.
`extract_publication_date`'s first pattern tries width 2, then width 1, the
backtracking order of the regex engine for `\d{1,2},`. -/
def dayCommaYear (w : Nat) (cs : List Char) : Option (List Char) := do
  let (day, r1) ← takeDigits w cs
  let r2 ← dropLit [','] r1
  let (ws3, r3) ← takeClass1 isPySpace r2
  let (year, _) ← takeDigits 4 r3
  some (day ++ [','] ++ ws3 ++ year)

/-- Tail of pattern 1, `\s+([A-Za-z]+\s+\d{1,2},\s+\d{4})` (scraper.py line
121), applied after the `First published`/`Published` literal; returns the
capture group. -/
def pat1Tail (cs : List Char) : Option (List Char) := do
  let (_, r1) ← takeClass1 isPySpace cs
  let (alpha, r2) ← takeClass1 Char.isAlpha r1
  let (ws2, r3) ← takeClass1 isPySpace r2
  let tail ← dayCommaYear 2 r3 <|> dayCommaYear 1 r3
  some (alpha ++ ws2 ++ tail)

/-- Tail of pattern 2, `\s+([A-Za-z]+\s+\d{4})` (scraper.py line 125). -/
def pat2Tail (cs : List Char) : Option (List Char) := do
  let (_, r1) ← takeClass1 isPySpace cs
  let (alpha, r2) ← takeClass1 Char.isAlpha r1
  let (ws2, r3) ← takeClass1 isPySpace r2
  let (year, _) ← takeDigits 4 r3
  some (alpha ++ ws2 ++ year)

/-- Tail of pattern 3, `\s+(\d{4})` (scraper.py line 129). -/
def pat3Tail (cs : List Char) : Option (List Char) := do
  let (_, r1) ← takeClass1 isPySpace cs
  let (year, _) ← takeDigits 4 r1
  some year

/-- Try `(?:First published|Published)` at the current position, then the
given pattern tail, in the regex engine's alternation order. -/
def pubPatAt (tail : List Char → Option (List Char)) (cs : List Char) : Option String :=
  (((dropLit ("First published".toList) cs).bind tail)
      <|> ((dropLit ("Published".toList) cs).bind tail)).map
    fun g => String.mk g

/-- `re.search`: try the pattern at every position, leftmost match first. -/
def searchFrom (f : List Char → Option String) : List Char → Option String
  | [] => f []
  | c :: rest =>
      match f (c :: rest) with
      | some g => some g
      | none => searchFrom f rest

/-- ASCII lower-casing of one character. -/
def charLower (c : Char) : Char :=
  if 'A' ≤ c && c ≤ 'Z' then Char.ofNat (c.toNat + 32) else c

/-- ASCII lower-casing of a string. -/
def lowerStr (s : String) : String :=
  String.mk (s.toList.map charLower)

/-- Month-name recognition of `dateutil.parser` (default `parserinfo`,
case-insensitive full names and abbreviations). -/
def monthNum (s : String) : Option Nat :=
  match lowerStr s with
  | "jan" | "january" => some 1
  | "feb" | "february" => some 2
  | "mar" | "march" => some 3
  | "apr" | "april" => some 4
  | "may" => some 5
  | "jun" | "june" => some 6
  | "jul" | "july" => some 7
  | "aug" | "august" => some 8
  | "sep" | "sept" | "september" => some 9
  | "oct" | "october" => some 10
  | "nov" | "november" => some 11
  | "dec" | "december" => some 12
  | _ => none

/-- Gregorian leap years, as implemented by Python's `datetime`. -/
def isLeap (y : Nat) : Bool :=
  (y % 4 == 0 && y % 100 != 0) || y % 400 == 0

/-- Days in a month, as enforced by Python's `datetime` constructor. -/
def daysInMonth (y m : Nat) : Nat :=
  if m = 2 then (if isLeap y then 29 else 28)
  else if m = 4 || m = 6 || m = 9 || m = 11 then 30
  else 31

/-- Tokens of a captured date string: alphanumeric runs, with whitespace and
commas as separators. -/
def dateTokens (s : String) : List String :=
  ((splitRuns (fun c => isPySpace c || c = ',') s.toList).filter
      (fun t => !t.isEmpty)).map
    (fun t => String.mk t)

/-- Modelled from the spec: `dateutil.parser.parse(date_str)` (scraper.py line
135; dateutil is a third-party library whose code is not part of this
repository), restricted to the three capture shapes "Month Day, Year",
"Month Year" and "Year" that `extract_publication_date` can produce.  Missing
month and day are filled from the `default` datetime, which dateutil takes
from the current date — passed here explicitly as `todayM`/`todayD`.  An
unknown month name or an out-of-range component makes the parse raise,
modelled as `none`. -/
def dateParse (todayM todayD : Nat) (s : String) : Option (Nat × Nat × Nat) :=
  match dateTokens s with
  | [a, d, y] =>
      match monthNum a with
      | none => none
      | some m =>
          let dn := digitsVal d.toList
          let yn := digitsVal y.toList
          if 1 ≤ yn ∧ yn ≤ 9999 ∧ 1 ≤ dn ∧ dn ≤ daysInMonth yn m then
            some (yn, m, dn)
          else none
  | [a, y] =>
      match monthNum a with
      | none => none
      | some m =>
          let yn := digitsVal y.toList
          if 1 ≤ yn ∧ yn ≤ 9999 ∧ 1 ≤ todayD ∧ todayD ≤ daysInMonth yn m then
            some (yn, m, todayD)
          else none
  | [y] =>
      if y.toList.all Char.isDigit then
        let yn := digitsVal y.toList
        if 1 ≤ yn ∧ yn ≤ 9999 ∧ 1 ≤ todayM ∧ todayM ≤ 12
            ∧ 1 ≤ todayD ∧ todayD ≤ daysInMonth yn todayM then
          some (yn, todayM, todayD)
        else none
      else none
  | _ => none

/-- Two-digit zero padding of `strftime`. -/
def pad2 (n : Nat) : String :=
  if n < 10 then "0" ++ toString n else toString n

/-- Four-digit zero padding of `strftime("%Y")`. -/
def pad4 (n : Nat) : String :=
  if n < 10 then "000" ++ toString n
  else if n < 100 then "00" ++ toString n
  else if n < 1000 then "0" ++ toString n
  else toString n

/-- `dt.strftime("%Y-%m-%d")` (scraper.py line 136). -/
def fmtDate (y m d : Nat) : String :=
  pad4 y ++ "-" ++ pad2 m ++ "-" ++ pad2 d

/-- The `try: dt = parser.parse(date_str); return dt.strftime("%Y-%m-%d")`
block of `extract_publication_date` (scraper.py lines 134-138): a raised
parse error yields "N/A". -/
def formatParsed (todayM todayD : Nat) (dateStr : String) : String :=
  match dateParse todayM todayD dateStr with
  | none => "N/A"
  | some (y, m, d) => fmtDate y m d

/-- `extract_publication_date(soup)` from scraper.py lines 114-138 over the
stripped text of the publication-info element (`none` when the element is
absent): search pattern 1 "Month Day, Year", else pattern 2 "Month Year",
else pattern 3 "Year", each anchored after `First published`/`Published`;
parse the first capture with dateutil (current date `todayM`/`todayD` filling
missing fields) and format as `YYYY-MM-DD`; no match or a parse failure
yields "N/A". -/
def extract_publication_date (todayM todayD : Nat) (pubText : Option String) : String :=
  match pubText with
  | none => "N/A"
  | some text =>
      let cs := text.toList
      let dateStr? :=
        match searchFrom (pubPatAt pat1Tail) cs with
        | some g => some g
        | none =>
            match searchFrom (pubPatAt pat2Tail) cs with
            | some g => some g
            | none => searchFrom (pubPatAt pat3Tail) cs
      match dateStr? with
      | none => "N/A"
      | some dateStr => formatParsed todayM todayD dateStr

/-- The six components of `urllib.parse.urlparse` (url.py line 68): scheme,
netloc, path, path parameters, the raw query string, and fragment.
`parsed._replace(query=...)` followed by `urlunparse` is the record update of
`query`. -/
structure UrlParts where
  scheme : String
  netloc : String
  path : String
  pathParams : String
  query : String
  fragment : String
deriving DecidableEq, Repr

/-- Python `str.split(sep)` on a character list: the chunks between separator
characters, empty chunks included (`"".split(sep)` is `[""]`). -/
def splitSep (p : Char → Bool) : List Char → List (List Char)
  | [] => [[]]
  | c :: cs =>
      if p c then [] :: splitSep p cs
      else
        match splitSep p cs with
        | [] => [[c]]
        | t :: ts => (c :: t) :: ts

/-- Value of a hexadecimal digit character, as `unquote` reads escapes. -/
def hexVal (c : Char) : Option Nat :=
  if '0' ≤ c && c ≤ '9' then some (c.toNat - 48)
  else if 'a' ≤ c && c ≤ 'f' then some (c.toNat - 87)
  else if 'A' ≤ c && c ≤ 'F' then some (c.toNat - 55)
  else none

/-- Uppercase hexadecimal digit of a value below 16 (`quote` emits uppercase
escapes). -/
def hexDigit (n : Nat) : Char :=
  if n < 10 then Char.ofNat (48 + n) else Char.ofNat (55 + n)

/-- First pass of `urllib.parse.unquote_plus`: plus signs become spaces. -/
def plusToSpace (cs : List Char) : List Char :=
  cs.map (fun c => if c = '+' then ' ' else c)

/-- One segment following a `%` in `unquote`'s split-on-percent scan: two
leading hexadecimal digits decode to a byte, anything else keeps the literal
percent sign.  Multi-byte UTF-8 escape sequences are out of scope of this
model — each escaped byte decodes to its own character. -/
def decodeSeg (seg : List Char) : List Char :=
  match seg with
  | a :: b :: rest =>
      (match hexVal a, hexVal b with
        | some ha, some hb => Char.ofNat (16 * ha + hb) :: rest
        | _, _ => '%' :: seg)
  | _ => '%' :: seg

/-- Second pass of `urllib.parse.unquote_plus`, as CPython implements it:
split on `%`, keep the first chunk, decode every later segment. -/
def percentDecode (cs : List Char) : List Char :=
  match splitSep (fun c => c = '%') cs with
  | [] => []
  | first :: segs => first ++ (segs.map decodeSeg).flatten

/-- `urllib.parse.unquote_plus` on a character list. -/
def unquoteL (cs : List Char) : List Char :=
  percentDecode (plusToSpace cs)

/-- Characters `urllib.parse.quote_plus` passes through unescaped (the
always-safe letters, digits and `_.-~`). -/
def isQuoteSafe (c : Char) : Bool :=
  c.isAlpha || c.isDigit || c = '_' || c = '.' || c = '-' || c = '~'

/-- The UTF-8 bytes of one character, as `quote` encodes it. -/
def quoteBytes (c : Char) : List Nat :=
  if c.toNat < 128 then [c.toNat]
  else if c.toNat < 2048 then [192 + c.toNat / 64, 128 + c.toNat % 64]
  else if c.toNat < 65536 then
    [224 + c.toNat / 4096, 128 + c.toNat / 64 % 64, 128 + c.toNat % 64]
  else
    [240 + c.toNat / 262144, 128 + c.toNat / 4096 % 64, 128 + c.toNat / 64 % 64,
      128 + c.toNat % 64]

/-- `urllib.parse.quote_plus` on one character: safe characters pass through,
a space becomes `+`, anything else is percent-escaped byte by byte. -/
def quotePlusChar (c : Char) : List Char :=
  if isQuoteSafe c then [c]
  else if c = ' ' then ['+']
  else (quoteBytes c).foldr (fun b acc => '%' :: hexDigit (b / 16) :: hexDigit (b % 16) :: acc) []

/-- `urllib.parse.quote_plus` on a character list. -/
def quoteL (cs : List Char) : List Char :=
  (cs.map quotePlusChar).flatten

/-- `name_value.split('=', 1)`: the text before the first `=` and the text
after it, or `none` when there is no `=`. -/
def splitFirstEq : List Char → Option (List Char × List Char)
  | [] => none
  | c :: rest =>
      if c = '=' then some ([], rest)
      else (splitFirstEq rest).map (fun nv => (c :: nv.1, nv.2))

/-- One field of `urllib.parse.parse_qsl(qs)` with default arguments: an
empty or `=`-less field is skipped (non-strict parsing), a field whose value
is blank is dropped (`keep_blank_values=False`), and otherwise the name and
the value are unquoted. -/
def parseField (field : List Char) : Option (String × String) :=
  match splitFirstEq field with
  | none => none
  | some (name, val) =>
      if val.isEmpty then none
      else some (String.mk (unquoteL name), String.mk (unquoteL val))

/-- Grouping step of `parse_qs`: a value for a known name extends that name's
value list in place, a new name is appended (dict insertion order). -/
def insertParam (acc : List (String × List String)) (k v : String) :
    List (String × List String) :=
  if acc.any (fun p => decide (p.1 = k)) then
    acc.map (fun p => if p.1 = k then (p.1, p.2 ++ [v]) else p)
  else acc ++ [(k, [v])]

/-- `urllib.parse.parse_qs(qs)` with default arguments (url.py line 69): split
the query string on `&`, parse each field — dropping empty fields, `=`-less
fields and blank-valued fields — and group the values by name in
first-occurrence order. -/
def parse_qs (qs : String) : List (String × List String) :=
  ((splitSep (fun c => c = '&') qs.toList).filterMap parseField).foldl
    (fun acc kv => insertParam acc kv.1 kv.2) []

/-- `'&'.join(fields)`. -/
def joinSep (sep : Char) : List (List Char) → List Char
  | [] => []
  | [f] => f
  | f :: g :: rest => f ++ sep :: joinSep sep (g :: rest)

/-- `urllib.parse.urlencode(params, doseq=True)` (url.py line 71): one
`name=value` field per value of each parameter, names and values quoted,
fields joined with `&`. -/
def urlencode (params : List (String × List String)) : String :=
  String.mk (joinSep '&'
    ((params.map
        (fun p => p.2.map (fun v => quoteL p.1.toList ++ '=' :: quoteL v.toList))).flatten))

/-- `params['page'] = [str(page_number)]` on a `parse_qs` dictionary: an
existing key keeps its position and gets the new value, a fresh key is
appended at the end (Python dicts preserve insertion order). -/
def setParam (q : List (String × List String)) (k : String) (v : List String) :
    List (String × List String) :=
  if q.any (fun p => decide (p.1 = k)) then
    q.map (fun p => if p.1 = k then (k, v) else p)
  else q ++ [(k, v)]

/-- Lookup of a query parameter by key. -/
def getParam (q : List (String × List String)) (k : String) : Option (List String) :=
  (q.find? (fun p => decide (p.1 = k))).map (fun p => p.2)

/-- `update_pagination_url(base_url, page_number)` from url.py lines 67-72 and
url_scraper.py lines 14-35: `parse_qs` the query string (a lossy step —
blank-valued and `=`-less fields are dropped), set/overwrite the `page`
parameter, `urlencode` the dictionary back, and `_replace` the query string;
every other URL component passes through unchanged. -/
def update_pagination_url (u : UrlParts) (pageNumber : Nat) : UrlParts :=
  { u with query := urlencode (setParam (parse_qs u.query) "page" [toString pageNumber]) }

/-- The names of the fields textually present in a query string. -/
def queryFieldNames (qs : String) : List String :=
  ((splitSep (fun c => c = '&') qs.toList).filter (fun f => !f.isEmpty)).map
    (fun f =>
      match splitFirstEq f with
      | some nv => String.mk nv.1
      | none => String.mk f)

/-- A string of ASCII characters — the fragment of the quote/unquote codec
this model covers exactly. -/
def asciiStr (s : String) : Prop := ∀ c ∈ s.toList, c.toNat < 128

/-- Parameters whose names and values are ASCII. -/
def asciiParams (ps : List (String × List String)) : Prop :=
  ∀ p ∈ ps, asciiStr p.1 ∧ ∀ v ∈ p.2, asciiStr v

/-- Parameters in the shape `parse_qs` produces: pairwise-distinct names and
non-empty value lists of non-blank values. -/
def goodParams (ps : List (String × List String)) : Prop :=
  (ps.map Prod.fst).Nodup ∧ ∀ p ∈ ps, p.2 ≠ [] ∧ ∀ v ∈ p.2, v ≠ ""

/-- The result of `removeDupAux` is a sublist (subsequence) of the input. -/
theorem removeDupAux_sublist (seen : List String) (data : List Book) :
    List.Sublist (removeDupAux seen data) data := by
  induction data generalizing seen with
  | nil => simp [removeDupAux]
  | cons b rest ih =>
      simp only [removeDupAux]
      by_cases h : b.title ∈ seen
      · simp only [h, if_true]
        exact List.Sublist.cons b (ih seen)
      · simp only [h, if_false]
        exact List.Sublist.cons₂ b (ih (b.title :: seen))

/-- No title kept by `removeDupAux` lies in `seen`, and the kept titles are
pairwise distinct. -/
theorem removeDupAux_titles_nodup (seen : List String) (data : List Book) :
    (∀ b ∈ removeDupAux seen data, b.title ∉ seen) ∧
      ((removeDupAux seen data).map Book.title).Nodup := by
  induction data generalizing seen with
  | nil => simp [removeDupAux]
  | cons b rest ih =>
      simp only [removeDupAux]
      by_cases h : b.title ∈ seen
      · simp only [h, if_true]
        exact ih seen
      · simp only [h, if_false]
        obtain ⟨hnot, hnodup⟩ := ih (b.title :: seen)
        refine ⟨?_, ?_⟩
        · intro x hx
          rcases List.mem_cons.mp hx with hx | hx
          · subst hx; exact h
          · intro hmem
            exact (hnot x hx) (List.mem_cons_of_mem _ hmem)
        · simp only [List.map_cons, List.nodup_cons]
          refine ⟨?_, hnodup⟩
          intro hmem
          rcases List.mem_map.mp hmem with ⟨x, hx, hxt⟩
          exact (hnot x hx) (hxt ▸ List.mem_cons_self _ _)

/-- Every input book whose title is not in `seen` has a representative with the
same title in the output of `removeDupAux`. -/
theorem removeDupAux_covers (seen : List String) (data : List Book) :
    ∀ x ∈ data, x.title ∉ seen →
      ∃ b ∈ removeDupAux seen data, b.title = x.title := by
  induction data generalizing seen with
  | nil => intro x hx; exact absurd hx (List.not_mem_nil x)
  | cons b rest ih =>
      intro x hx hxseen
      simp only [removeDupAux]
      by_cases h : b.title ∈ seen
      · simp only [h, if_true]
        rcases List.mem_cons.mp hx with hx | hx
        · subst hx; exact absurd h hxseen
        · exact ih seen x hx hxseen
      · simp only [h, if_false]
        rcases List.mem_cons.mp hx with hx | hx
        · subst hx; exact ⟨x, List.mem_cons_self _ _, rfl⟩
        · by_cases hxb : x.title = b.title
          · exact ⟨b, List.mem_cons_self _ _, hxb.symm⟩
          · obtain ⟨u, hu, hut⟩ :=
              ih (b.title :: seen) x hx (by
                intro hmem
                rcases List.mem_cons.mp hmem with hmem | hmem
                · exact hxb hmem
                · exact hxseen hmem)
            exact ⟨u, List.mem_cons_of_mem _ hu, hut⟩

/-- Each book kept by `removeDupAux` is the first book of `data` bearing its
title. -/
theorem removeDupAux_first_occurrence (seen : List String) (data : List Book) :
    ∀ b ∈ removeDupAux seen data,
      data.find? (fun x => x.title == b.title) = some b := by
  induction data generalizing seen with
  | nil => intro b hb; exact absurd hb (List.not_mem_nil b)
  | cons a rest ih =>
      intro b hb
      simp only [removeDupAux] at hb
      by_cases h : a.title ∈ seen
      · simp only [h, if_true] at hb
        by_cases hab : a.title = b.title
        · exact absurd (hab ▸ h) ((removeDupAux_titles_nodup seen rest).1 b hb)
        · rw [List.find?_cons_of_neg _ (by simpa using hab)]
          exact ih seen b hb
      · simp only [h, if_false] at hb
        rcases List.mem_cons.mp hb with hb | hb
        · subst hb
          rw [List.find?_cons_of_pos _ (by simp)]
        · have hnb := (removeDupAux_titles_nodup (a.title :: seen) rest).1 b hb
          have hab : a.title ≠ b.title := by
            intro he
            exact hnb (he ▸ List.mem_cons_self _ _)
          rw [List.find?_cons_of_neg _ (by simpa using hab)]
          exact ih (a.title :: seen) b hb

/-- On a list whose titles are pairwise distinct and disjoint from `seen`,
`removeDupAux` keeps everything. -/
theorem removeDupAux_of_nodup (seen : List String) (data : List Book)
    (hnodup : (data.map Book.title).Nodup)
    (hdisj : ∀ b ∈ data, b.title ∉ seen) :
    removeDupAux seen data = data := by
  induction data generalizing seen with
  | nil => rfl
  | cons b rest ih =>
      simp only [List.map_cons, List.nodup_cons] at hnodup
      have hb : b.title ∉ seen := hdisj b (List.mem_cons_self _ _)
      simp only [removeDupAux, hb, if_false]
      rw [ih (b.title :: seen) hnodup.2]
      intro x hx hmem
      rcases List.mem_cons.mp hmem with hmem | hmem
      · exact hnodup.1 (hmem ▸ List.mem_map_of_mem Book.title hx)
      · exact hdisj x (List.mem_cons_of_mem _ hx) hmem

/-- C1: `remove_duplicates` returns a sequence with no two records of equal
title; it is a subsequence of the input (so kept records appear in input
order); every input title is represented; and each kept record is the first
record of the input bearing its title. -/
theorem remove_duplicates_dedup_spec (data : List Book) :
    ((remove_duplicates data).map Book.title).Nodup ∧
    List.Sublist (remove_duplicates data) data ∧
    (∀ x ∈ data, ∃ b ∈ remove_duplicates data, b.title = x.title) ∧
    (∀ b ∈ remove_duplicates data,
      data.find? (fun x => x.title == b.title) = some b) := by
  refine ⟨(removeDupAux_titles_nodup [] data).2, removeDupAux_sublist [] data,
    ?_, removeDupAux_first_occurrence [] data⟩
  intro x hx
  exact removeDupAux_covers [] data x hx (List.not_mem_nil _)

/-- C10: `remove_duplicates` is idempotent, and its output is a subsequence of
its input (records are kept unmodified, in their relative input order). -/
theorem remove_duplicates_idempotent (data : List Book) :
    remove_duplicates (remove_duplicates data) = remove_duplicates data ∧
    List.Sublist (remove_duplicates data) data := by
  constructor
  · exact removeDupAux_of_nodup [] _ (removeDupAux_titles_nodup [] data).2
      (fun b _ => List.not_mem_nil _)
  · exact removeDupAux_sublist [] data

/-- C5: starting from an absent file, each call to `save_data_to_json` reads
the existing array (absent file = empty array), appends the new records after
the existing ones, and writes the merge back; two calls with the same list
`L` therefore leave the file holding `L ++ L`, with no cross-run
deduplication. -/
theorem save_data_to_json_append_twice (L : List Book) :
    save_data_to_json (save_data_to_json JsonFile.absent L) L
        = JsonFile.wellFormed (L ++ L) ∧
    save_data_to_json JsonFile.absent L = JsonFile.wellFormed L ∧
    (∀ existing : List Book,
      save_data_to_json (JsonFile.wellFormed existing) L
        = JsonFile.wellFormed (existing ++ L)) := by
  refine ⟨?_, ?_, fun existing => rfl⟩ <;> simp [save_data_to_json]

/-- C6 counterexample: on a malformed existing file, `save_data_to_json` does
NOT behave as on an absent file — `json.load` raises `JSONDecodeError`, which
escapes the inner `except FileNotFoundError` and is swallowed by the outer
handler, so nothing is written and the file stays malformed, whereas from an
absent file the records are written. -/
theorem save_data_to_json_malformed_cex :
    save_data_to_json JsonFile.malformed [({ title := "Fight Club", payload := 0 } : Book)]
        = JsonFile.malformed ∧
    save_data_to_json JsonFile.malformed [({ title := "Fight Club", payload := 0 } : Book)]
        ≠ save_data_to_json JsonFile.absent [({ title := "Fight Club", payload := 0 } : Book)] := by
  refine ⟨rfl, ?_⟩
  intro h
  simp [save_data_to_json] at h

/-- C6 amended: a malformed existing file is distinguished from an absent one:
the load failure propagates past the inner handler to the outer
`except Exception`, which only logs, so the new records are never written and
the file is left unchanged — unlike the absent case, which writes the
records. -/
theorem save_data_to_json_malformed_no_write (L : List Book) :
    save_data_to_json JsonFile.malformed L = JsonFile.malformed ∧
    save_data_to_json JsonFile.malformed L ≠ save_data_to_json JsonFile.absent L := by
  refine ⟨rfl, ?_⟩
  intro h
  simp [save_data_to_json] at h

/-- C8 counterexample: `extract_int_from_text` on the non-empty digit-free
text "abc" strips everything and calls `int("")`, which raises `ValueError`
(modelled as `none`): the extraction is not total on strings. -/
theorem extract_int_from_text_cex :
    extract_int_from_text "abc" = none ∧ "abc" ≠ "" := by
  refine ⟨rfl, by decide⟩

/-- C8 amended: `extract_int_from_text` returns 0 on empty (falsy) text and
the integer denoted by the digit characters whenever the text contains at
least one digit; an absent ratings element yields 0 without calling the
extractor; but a non-empty text with no digits makes `int("")` raise. -/
theorem extract_int_from_text_amended (text : String) :
    (text = "" → extract_int_from_text text = some 0) ∧
    (text.toList.filter Char.isDigit ≠ [] →
        extract_int_from_text text = some (digitsVal (text.toList.filter Char.isDigit))) ∧
    (text ≠ "" → text.toList.filter Char.isDigit = [] →
        extract_int_from_text text = none) ∧
    ratings_count_field none = some 0 := by
  refine ⟨?_, ?_, ?_, rfl⟩
  · intro h; subst h; rfl
  · intro hne
    have htext : text.isEmpty = false := by
      cases he : text.isEmpty
      · rfl
      · rw [(String.isEmpty_iff text).mp he] at hne
        exact absurd rfl hne
    have hfil : (text.toList.filter Char.isDigit).isEmpty = false := by
      cases hl : text.toList.filter Char.isDigit with
      | nil => exact absurd hl hne
      | cons c cs => rfl
    simp only [extract_int_from_text, htext, Bool.false_eq_true, if_false, hfil]
  · intro hne hfil
    have htext : text.isEmpty = false := by
      cases he : text.isEmpty
      · rfl
      · exact absurd ((String.isEmpty_iff text).mp he) hne
    simp only [extract_int_from_text, htext, Bool.false_eq_true, if_false, hfil,
      List.isEmpty_nil, if_true]

/-- C8 witness: the amended statement evaluated at the ratings text
"1,234 ratings" and at the empty text. -/
theorem extract_int_from_text_amended_witness :
    extract_int_from_text "1,234 ratings"
        = some (digitsVal (("1,234 ratings").toList.filter Char.isDigit)) ∧
    extract_int_from_text "" = some 0 :=
  ⟨(extract_int_from_text_amended "1,234 ratings").2.1 (by decide),
   (extract_int_from_text_amended "").1 rfl⟩

/-- If every attempt in the window `[start, start + n)` fails, the retry loop
returns `none`. -/
theorem fetchGo_none (attempts : Nat → FetchAttempt) (start n : Nat)
    (h : ∀ i, start ≤ i → i < start + n → attemptFails (attempts i)) :
    fetchGo attempts start n = none := by
  induction n generalizing start with
  | zero => rfl
  | succ n ih =>
      simp only [fetchGo]
      cases hA : attempts start with
      | ok status body =>
          have hf := h start le_rfl (by omega)
          rw [hA] at hf
          have hs : ¬ status = 200 := by
            intro he
            exact hf ⟨by omega, by omega⟩
          show (if status = 200 then some body else fetchGo attempts (start + 1) n) = none
          rw [if_neg hs]
          exact ih (start + 1) (fun i h1 h2 => h i (by omega) (by omega))
      | exn msg =>
          exact ih (start + 1) (fun i h1 h2 => h i (by omega) (by omega))

/-- The retry loop only inspects attempts in the window `[start, start + n)`. -/
theorem fetchGo_congr (attempts attempts' : Nat → FetchAttempt) (start n : Nat)
    (h : ∀ i, start ≤ i → i < start + n → attempts i = attempts' i) :
    fetchGo attempts start n = fetchGo attempts' start n := by
  induction n generalizing start with
  | zero => rfl
  | succ n ih =>
      simp only [fetchGo]
      rw [← h start le_rfl (by omega)]
      cases hA : attempts start with
      | ok status body =>
          show (if status = 200 then some body else fetchGo attempts (start + 1) n)
            = (if status = 200 then some body else fetchGo attempts' (start + 1) n)
          by_cases hs : status = 200
          · rw [if_pos hs, if_pos hs]
          · rw [if_neg hs, if_neg hs]
            exact ih (start + 1) (fun i h1 h2 => h i (by omega) (by omega))
      | exn msg =>
          exact ih (start + 1) (fun i h1 h2 => h i (by omega) (by omega))

/-- C4: `fetch_url_with_retries` treats every transport-level exception and
every response whose status is not a 2xx success as an attempt failure — if
all of the first `retries` attempts are such failures it returns `None`
rather than raising — and it makes at most `retries` attempts: its result
only depends on the outcomes of the first `retries` requests. -/
theorem fetch_url_with_retries_spec (attempts attempts' : Nat → FetchAttempt)
    (retries : Nat) :
    ((∀ i, i < retries → attemptFails (attempts i)) →
        fetch_url_with_retries attempts retries = none) ∧
    ((∀ i, i < retries → attempts i = attempts' i) →
        fetch_url_with_retries attempts retries
          = fetch_url_with_retries attempts' retries) := by
  constructor
  · intro h
    exact fetchGo_none attempts 0 retries (fun i _ h2 => h i (by omega))
  · intro h
    exact fetchGo_congr attempts attempts' 0 retries (fun i _ h2 => h i (by omega))

/-- C4 witness: three attempts that all raise a transport exception exhaust
the retry budget and produce `None`. -/
theorem fetch_url_with_retries_spec_witness :
    fetch_url_with_retries (fun _ => FetchAttempt.exn "connection error") 3 = none :=
  (fetch_url_with_retries_spec (fun _ => FetchAttempt.exn "connection error")
    (fun _ => FetchAttempt.exn "connection error") 3).1 (fun _ _ => trivial)


/-- Key-matching head: lookup returns its value. -/
theorem getParam_cons_pos (p : String × List String) (rest : List (String × List String))
    (k : String) (h : p.1 = k) : getParam (p :: rest) k = some p.2 := by
  unfold getParam
  rw [List.find?_cons_of_pos]
  · rfl
  · simp [h]

/-- Non-matching head: lookup skips it. -/
theorem getParam_cons_neg (p : String × List String) (rest : List (String × List String))
    (k : String) (h : ¬ p.1 = k) : getParam (p :: rest) k = getParam rest k := by
  unfold getParam
  rw [List.find?_cons_of_neg]
  simp [h]

/-- Looking the key up after replacing its value finds the new value whenever
the lookup previously succeeded. -/
theorem getParam_map_set (q : List (String × List String)) (k : String) (v : List String) :
    getParam (q.map (fun x => if x.1 = k then (k, v) else x)) k
      = (getParam q k).map (fun _ => v) := by
  induction q with
  | nil => rfl
  | cons p rest ih =>
      by_cases hp : p.1 = k
      · rw [List.map_cons, if_pos hp, getParam_cons_pos _ _ _ rfl, getParam_cons_pos _ _ _ hp]
        rfl
      · rw [List.map_cons, if_neg hp, getParam_cons_neg _ _ _ hp, getParam_cons_neg _ _ _ hp]
        exact ih

/-- When no entry has the key, lookup after appending the key finds it. -/
theorem getParam_append_key (q : List (String × List String)) (k : String)
    (v : List String) (h : q.any (fun x => decide (x.1 = k)) = false) :
    getParam (q ++ [(k, v)]) k = some v := by
  induction q with
  | nil =>
      rw [List.nil_append, getParam_cons_pos _ _ _ rfl]
  | cons p rest ih =>
      simp only [List.any_cons, Bool.or_eq_false_iff] at h
      rw [List.cons_append, getParam_cons_neg _ _ _ (by simpa using h.1)]
      exact ih h.2

/-- When some entry has the key, lookup succeeds. -/
theorem getParam_isSome_of_key (q : List (String × List String)) (k : String)
    (h : q.any (fun x => decide (x.1 = k)) = true) : ∃ w, getParam q k = some w := by
  induction q with
  | nil => simp at h
  | cons p rest ih =>
      by_cases hp : p.1 = k
      · exact ⟨p.2, getParam_cons_pos _ _ _ hp⟩
      · simp only [List.any_cons, (by simp [hp] : decide (p.1 = k) = false), Bool.false_or] at h
        obtain ⟨w, hw⟩ := ih h
        exact ⟨w, (getParam_cons_neg _ _ _ hp).trans hw⟩

/-- Replacing a key's value leaves every entry with a different key alone. -/
theorem filter_map_set (q : List (String × List String)) (k : String) (v : List String) :
    (q.map (fun x => if x.1 = k then (k, v) else x)).filter (fun p => decide (p.1 ≠ k))
      = q.filter (fun p => decide (p.1 ≠ k)) := by
  induction q with
  | nil => rfl
  | cons p rest ih =>
      by_cases hp : p.1 = k
      · rw [List.map_cons, if_pos hp, List.filter_cons_of_neg (by simp),
          List.filter_cons_of_neg (by simp [hp])]
        exact ih
      · rw [List.map_cons, if_neg hp, List.filter_cons_of_pos (by simp [hp]),
          List.filter_cons_of_pos (by simp [hp])]
        rw [ih]

/-- Replacing a key's value does not change which keys occur. -/
theorem any_key_map_set (q : List (String × List String)) (k : String) (v : List String) :
    (q.map (fun x => if x.1 = k then (k, v) else x)).any (fun x => decide (x.1 = k))
      = q.any (fun x => decide (x.1 = k)) := by
  induction q with
  | nil => rfl
  | cons p rest ih =>
      by_cases hp : p.1 = k
      · rw [List.map_cons, if_pos hp, List.any_cons, List.any_cons]
        simp [hp]
      · rw [List.map_cons, if_neg hp, List.any_cons, List.any_cons, ih]

/-- A list without the key is unchanged by the replacement map. -/
theorem map_set_of_no_key (q : List (String × List String)) (k : String) (v : List String)
    (h : q.any (fun x => decide (x.1 = k)) = false) :
    q.map (fun x => if x.1 = k then (k, v) else x) = q := by
  induction q with
  | nil => rfl
  | cons p rest ih =>
      simp only [List.any_cons, Bool.or_eq_false_iff] at h
      rw [List.map_cons, if_neg (by simpa using h.1), ih h.2]

/-- Setting the same key twice is the same as setting it once with the final
value. -/
theorem setParam_setParam (q : List (String × List String)) (k : String)
    (v v' : List String) :
    setParam (setParam q k v) k v' = setParam q k v' := by
  by_cases hany : (q.any fun x => decide (x.1 = k)) = true
  · have h1 : setParam q k v = q.map (fun x => if x.1 = k then (k, v) else x) := by
      simp only [setParam, hany, if_true]
    have h3 : setParam q k v' = q.map (fun x => if x.1 = k then (k, v') else x) := by
      simp only [setParam, hany, if_true]
    rw [h1, h3]
    have h2 := any_key_map_set q k v
    rw [hany] at h2
    simp only [setParam, h2, if_true, List.map_map]
    congr 1
    funext x
    by_cases hp : x.1 = k <;> simp [hp, Function.comp]
  · have hany' : (q.any fun x => decide (x.1 = k)) = false := by
      cases hb : (q.any fun x => decide (x.1 = k))
      · rfl
      · exact absurd hb hany
    have h1 : setParam q k v = q ++ [(k, v)] := by
      simp only [setParam, hany', Bool.false_eq_true, if_false]
    have h3 : setParam q k v' = q ++ [(k, v')] := by
      simp only [setParam, hany', Bool.false_eq_true, if_false]
    rw [h1, h3]
    have h2 : ((q ++ [(k, v)]).any fun x => decide (x.1 = k)) = true := by
      simp [List.any_append]
    simp only [setParam, h2, if_true, List.map_append, List.map_cons, if_pos rfl,
      List.map_nil]
    rw [map_set_of_no_key q k v' hany']

/-- C7 counterexample: the block text "123abcdefgh" passes the code's check
(non-empty, first three characters are digits, first token at least 10
characters long) and is returned as the ISBN, yet its token does not start
with ten digits, and neither the blocks nor the markup contain a token
starting with ten digits or a 978/979 13-digit sequence — under the claim the
result would have been "N/A". -/
theorem extract_isbn_cex :
    extract_isbn ["123abcdefgh"] "" = "123abcdefgh" ∧
    startsWithTenDigits (firstToken "123abcdefgh") = false ∧
    isbnScan none ("".toList) = none := by
  refine ⟨?_, ?_, rfl⟩ <;> decide

/-- C7 amended: `extract_isbn` returns the first token of the first
supplementary block whose text is non-empty, begins with three digit
characters, and whose first token is at least 10 characters long (the code
does not require the token to start with ten digits); when no block
qualifies, it returns the leftmost word-bounded 13-digit sequence starting
978/979 in the raw markup if one exists, and "N/A" otherwise. -/
theorem extract_isbn_amended (blocks : List String) (html : String) :
    (∃ pre b post, blocks = pre ++ b :: post ∧
        (∀ x ∈ pre, firstTokenCond x = false) ∧ firstTokenCond b = true ∧
        extract_isbn blocks html = firstToken b) ∨
    ((∀ b ∈ blocks, firstTokenCond b = false) ∧
        extract_isbn blocks html = (isbnScan none html.toList).getD "N/A") := by
  induction blocks with
  | nil =>
      right
      exact ⟨fun b hb => absurd hb (List.not_mem_nil b), rfl⟩
  | cons a rest ih =>
      by_cases ha : firstTokenCond a = true
      · left
        refine ⟨[], a, rest, rfl, fun x hx => absurd hx (List.not_mem_nil x), ha, ?_⟩
        simp only [extract_isbn, ha, if_true]
      · have ha' : firstTokenCond a = false := by
          cases hb : firstTokenCond a
          · rfl
          · exact absurd hb ha
        have hstep : extract_isbn (a :: rest) html = extract_isbn rest html := by
          simp only [extract_isbn, ha', Bool.false_eq_true, if_false]
        rcases ih with ⟨pre, b, post, heq, hpre, hb, hres⟩ | ⟨hall, hres⟩
        · left
          refine ⟨a :: pre, b, post, by rw [heq]; rfl, ?_, hb, hstep.trans hres⟩
          intro x hx
          rcases List.mem_cons.mp hx with hx | hx
          · exact hx ▸ ha'
          · exact hpre x hx
        · right
          refine ⟨?_, hstep.trans hres⟩
          intro b hb
          rcases List.mem_cons.mp hb with hb | hb
          · exact hb ▸ ha'
          · exact hall b hb

/-- `firstSeenAux` only ever appends to its accumulator. -/
theorem firstSeenAux_acc_grows (acc l : List String) :
    ∃ t, firstSeenAux acc l = acc ++ t := by
  induction l generalizing acc with
  | nil => exact ⟨[], by simp [firstSeenAux]⟩
  | cons u rest ih =>
      by_cases hmem : u ∈ acc
      · simpa only [firstSeenAux, hmem, if_true] using ih acc
      · simp only [firstSeenAux, hmem, if_false]
        obtain ⟨t, ht⟩ := ih (acc ++ [u])
        exact ⟨u :: t, by rw [ht, List.append_assoc]; rfl⟩

/-- `firstSeenAux` processes a concatenated stream in two stages. -/
theorem firstSeenAux_append_stream (acc l1 l2 : List String) :
    firstSeenAux acc (l1 ++ l2) = firstSeenAux (firstSeenAux acc l1) l2 := by
  induction l1 generalizing acc with
  | nil => rfl
  | cons u rest ih =>
      by_cases hmem : u ∈ acc
      · simp only [List.cons_append, firstSeenAux, hmem, if_true]
        exact ih acc
      · simp only [List.cons_append, firstSeenAux, hmem, if_false]
        exact ih (acc ++ [u])

/-- Already-collected link: the inner loop skips it. -/
theorem addPageLinks_cons_mem (acc : List String) (maxUrls : Nat) (href : String)
    (rest : List String) (h : toFullUrl href ∈ acc) :
    addPageLinks acc maxUrls (href :: rest) = addPageLinks acc maxUrls rest := by
  simp only [addPageLinks, h, if_true]

/-- New link reaching the target: the inner loop appends it and breaks. -/
theorem addPageLinks_cons_new_stop (acc : List String) (maxUrls : Nat) (href : String)
    (rest : List String) (h : toFullUrl href ∉ acc)
    (h2 : maxUrls ≤ (acc ++ [toFullUrl href]).length) :
    addPageLinks acc maxUrls (href :: rest) = acc ++ [toFullUrl href] := by
  simp only [addPageLinks, h, if_false, h2, if_true]

/-- New link below the target: the inner loop appends it and continues. -/
theorem addPageLinks_cons_new_go (acc : List String) (maxUrls : Nat) (href : String)
    (rest : List String) (h : toFullUrl href ∉ acc)
    (h2 : ¬ maxUrls ≤ (acc ++ [toFullUrl href]).length) :
    addPageLinks acc maxUrls (href :: rest)
      = addPageLinks (acc ++ [toFullUrl href]) maxUrls rest := by
  simp only [addPageLinks, h, if_false, h2]

/-- The inner loop computes a prefix of the first-seen deduplication of the
page's links, and is exactly that deduplication unless it hit the target
count. -/
theorem addPageLinks_chars (acc : List String) (maxUrls : Nat) (hs : List String) :
    (∃ t, firstSeenAux acc (hs.map toFullUrl) = addPageLinks acc maxUrls hs ++ t) ∧
    (addPageLinks acc maxUrls hs = firstSeenAux acc (hs.map toFullUrl) ∨
      maxUrls ≤ (addPageLinks acc maxUrls hs).length) := by
  induction hs generalizing acc with
  | nil =>
      exact ⟨⟨[], by simp [firstSeenAux, addPageLinks]⟩, Or.inl rfl⟩
  | cons href rest ih =>
      rw [List.map_cons]
      by_cases hmem : toFullUrl href ∈ acc
      · rw [addPageLinks_cons_mem acc maxUrls href rest hmem]
        have hfs : firstSeenAux acc (toFullUrl href :: rest.map toFullUrl)
            = firstSeenAux acc (rest.map toFullUrl) := by
          simp only [firstSeenAux, hmem, if_true]
        rw [hfs]
        exact ih acc
      · have hfs : firstSeenAux acc (toFullUrl href :: rest.map toFullUrl)
            = firstSeenAux (acc ++ [toFullUrl href]) (rest.map toFullUrl) := by
          simp only [firstSeenAux, hmem, if_false]
        rw [hfs]
        by_cases hstop : maxUrls ≤ (acc ++ [toFullUrl href]).length
        · rw [addPageLinks_cons_new_stop acc maxUrls href rest hmem hstop]
          refine ⟨firstSeenAux_acc_grows (acc ++ [toFullUrl href]) (rest.map toFullUrl),
            Or.inr hstop⟩
        · rw [addPageLinks_cons_new_go acc maxUrls href rest hmem hstop]
          exact ih (acc ++ [toFullUrl href])

/-- Entering the inner loop below the target keeps the collection within the
target count. -/
theorem addPageLinks_length (acc : List String) (maxUrls : Nat) (hs : List String)
    (h : acc.length < maxUrls) : (addPageLinks acc maxUrls hs).length ≤ maxUrls := by
  induction hs generalizing acc with
  | nil => exact Nat.le_of_lt h
  | cons href rest ih =>
      by_cases hmem : toFullUrl href ∈ acc
      · rw [addPageLinks_cons_mem acc maxUrls href rest hmem]
        exact ih acc h
      · by_cases hstop : maxUrls ≤ (acc ++ [toFullUrl href]).length
        · rw [addPageLinks_cons_new_stop acc maxUrls href rest hmem hstop]
          simp only [List.length_append, List.length_cons, List.length_nil]
          omega
        · rw [addPageLinks_cons_new_go acc maxUrls href rest hmem hstop]
          refine ih (acc ++ [toFullUrl href]) ?_
          simp only [List.length_append, List.length_cons, List.length_nil] at hstop ⊢
          omega

/-- The inner loop never introduces a duplicate. -/
theorem addPageLinks_nodup (acc : List String) (maxUrls : Nat) (hs : List String)
    (h : acc.Nodup) : (addPageLinks acc maxUrls hs).Nodup := by
  induction hs generalizing acc with
  | nil => exact h
  | cons href rest ih =>
      by_cases hmem : toFullUrl href ∈ acc
      · rw [addPageLinks_cons_mem acc maxUrls href rest hmem]
        exact ih acc h
      · have hnd : (acc ++ [toFullUrl href]).Nodup := by
          simp [List.nodup_append, h, hmem]
        by_cases hstop : maxUrls ≤ (acc ++ [toFullUrl href]).length
        · rw [addPageLinks_cons_new_stop acc maxUrls href rest hmem hstop]
          exact hnd
        · rw [addPageLinks_cons_new_go acc maxUrls href rest hmem hstop]
          exact ih (acc ++ [toFullUrl href]) hnd

/-- Once the target count is reached, the page loop does nothing more. -/
theorem fetchPagesLoop_stop (maxUrls : Nat) (pages : List PageFetch)
    (acc : List String) (h : maxUrls ≤ acc.length) :
    fetchPagesLoop maxUrls pages acc = acc := by
  cases pages with
  | nil => rfl
  | cons p rest => simp only [fetchPagesLoop, if_neg (Nat.not_lt.mpr h)]

/-- The page loop preserves the no-duplicates invariant. -/
theorem fetchPagesLoop_nodup (pages : List PageFetch) (maxUrls : Nat)
    (acc : List String) (h : acc.Nodup) : (fetchPagesLoop maxUrls pages acc).Nodup := by
  induction pages generalizing acc with
  | nil => exact h
  | cons p rest ih =>
      by_cases hlt : acc.length < maxUrls
      · cases p with
        | failed => simpa only [fetchPagesLoop, if_pos hlt] using h
        | page hrefs =>
            by_cases hemp : hrefs.isEmpty
            · simpa only [fetchPagesLoop, if_pos hlt, hemp, if_true] using h
            · simp only [fetchPagesLoop, if_pos hlt, hemp, Bool.false_eq_true, if_false]
              exact ih (addPageLinks acc maxUrls hrefs) (addPageLinks_nodup acc maxUrls hrefs h)
      · simpa only [fetchPagesLoop, if_neg hlt] using h

/-- The page loop never exceeds the target count. -/
theorem fetchPagesLoop_length (pages : List PageFetch) (maxUrls : Nat)
    (acc : List String) (h : acc.length ≤ maxUrls) :
    (fetchPagesLoop maxUrls pages acc).length ≤ maxUrls := by
  induction pages generalizing acc with
  | nil => exact h
  | cons p rest ih =>
      by_cases hlt : acc.length < maxUrls
      · cases p with
        | failed => simpa only [fetchPagesLoop, if_pos hlt] using h
        | page hrefs =>
            by_cases hemp : hrefs.isEmpty
            · simpa only [fetchPagesLoop, if_pos hlt, hemp, if_true] using h
            · simp only [fetchPagesLoop, if_pos hlt, hemp, Bool.false_eq_true, if_false]
              exact ih (addPageLinks acc maxUrls hrefs) (addPageLinks_length acc maxUrls hrefs hlt)
      · simpa only [fetchPagesLoop, if_neg hlt] using h

/-- One page's contribution to the full URL stream. -/
theorem allPageUrls_cons (p : PageFetch) (pages : List PageFetch) :
    allPageUrls (p :: pages) = (pageHrefs p).map toFullUrl ++ allPageUrls pages := by
  simp [allPageUrls]

/-- The page loop's result is a prefix of the first-seen deduplication of the
full link stream: collected URLs appear in first-seen order. -/
theorem fetchPagesLoop_firstSeen (pages : List PageFetch) (maxUrls : Nat)
    (acc : List String) :
    ∃ t, firstSeenAux acc (allPageUrls pages) = fetchPagesLoop maxUrls pages acc ++ t := by
  induction pages generalizing acc with
  | nil => exact ⟨[], by simp [allPageUrls, firstSeenAux, fetchPagesLoop]⟩
  | cons p rest ih =>
      rw [allPageUrls_cons, firstSeenAux_append_stream]
      by_cases hlt : acc.length < maxUrls
      · cases p with
        | failed =>
            simp only [fetchPagesLoop, if_pos hlt, pageHrefs, List.map_nil]
            exact firstSeenAux_acc_grows acc (allPageUrls rest)
        | page hrefs =>
            by_cases hemp : hrefs.isEmpty
            · have hnil : hrefs = [] := by
                cases hrefs with
                | nil => rfl
                | cons x xs => simp [List.isEmpty] at hemp
              subst hnil
              simp only [fetchPagesLoop, if_pos hlt, List.isEmpty_nil, if_true,
                pageHrefs, List.map_nil]
              exact firstSeenAux_acc_grows acc (allPageUrls rest)
            · simp only [fetchPagesLoop, if_pos hlt, hemp, Bool.false_eq_true, if_false,
                pageHrefs]
              obtain ⟨⟨t0, ht0⟩, hOr⟩ := addPageLinks_chars acc maxUrls hrefs
              cases hOr with
              | inl heq =>
                  rw [← heq]
                  exact ih (addPageLinks acc maxUrls hrefs)
              | inr hge =>
                  rw [fetchPagesLoop_stop maxUrls rest _ hge]
                  obtain ⟨t1, ht1⟩ :=
                    firstSeenAux_acc_grows (firstSeenAux acc (hrefs.map toFullUrl))
                      (allPageUrls rest)
                  rw [ht1, ht0, List.append_assoc]
                  exact ⟨t0 ++ t1, rfl⟩
      · rw [fetchPagesLoop_stop maxUrls (p :: rest) acc (Nat.not_lt.mp hlt)]
        obtain ⟨t0, ht0⟩ := firstSeenAux_acc_grows acc ((pageHrefs p).map toFullUrl)
        obtain ⟨t1, ht1⟩ :=
          firstSeenAux_acc_grows (firstSeenAux acc ((pageHrefs p).map toFullUrl))
            (allPageUrls rest)
        rw [ht1, ht0, List.append_assoc]
        exact ⟨t0 ++ t1, rfl⟩

/-- C2 counterexample: with pages ["/a"], ["/a"], ["/b"] and a target of 2,
page 2 yields zero NEW links (the inner loop leaves the collection unchanged),
yet the crawler does not stop there: it proceeds to page 3 and collects /b.
The crawler stops on a page with zero links, not zero new links. -/
theorem fetch_goodreads_urls_cex :
    addPageLinks ["https://www.goodreads.com/a"] 2 ["/a"]
        = ["https://www.goodreads.com/a"] ∧
    fetch_goodreads_urls
        [PageFetch.page ["/a"], PageFetch.page ["/a"], PageFetch.page ["/b"]] 2
      = ["https://www.goodreads.com/a", "https://www.goodreads.com/b"] := by
  constructor <;> decide

/-- C2 amended: the crawler returns a duplicate-free sequence in first-seen
order (a prefix of the first-seen deduplication of the full link stream),
never longer than `maxUrls`; it stops as soon as `maxUrls` URLs are collected
— even mid-page — and stops early on a page that yields zero links
(all-duplicate pages, which yield zero NEW links, do not stop it). -/
theorem fetch_goodreads_urls_amended (pages : List PageFetch) (maxUrls : Nat) :
    (fetch_goodreads_urls pages maxUrls).Nodup ∧
    (fetch_goodreads_urls pages maxUrls).length ≤ maxUrls ∧
    (∃ t, firstSeenAux [] (allPageUrls pages)
        = fetch_goodreads_urls pages maxUrls ++ t) ∧
    (∀ (acc : List String) (rest : List PageFetch), maxUrls ≤ acc.length →
        fetchPagesLoop maxUrls rest acc = acc) ∧
    (∀ (acc : List String) (rest : List PageFetch),
        fetchPagesLoop maxUrls (PageFetch.page [] :: rest) acc = acc) := by
  refine ⟨fetchPagesLoop_nodup pages maxUrls [] List.nodup_nil,
    fetchPagesLoop_length pages maxUrls [] (Nat.zero_le maxUrls),
    fetchPagesLoop_firstSeen pages maxUrls [],
    fun acc rest h => fetchPagesLoop_stop maxUrls rest acc h,
    fun acc rest => ?_⟩
  by_cases hlt : acc.length < maxUrls
  · simp only [fetchPagesLoop, if_pos hlt, List.isEmpty_nil, if_true]
  · simp only [fetchPagesLoop, if_neg hlt]

/-- C2 witness: a collection already holding two URLs meets a target of 2, so
the loop stops immediately even though another page is available. -/
theorem fetch_goodreads_urls_amended_witness :
    (2 : Nat) ≤ (["https://www.goodreads.com/a", "https://www.goodreads.com/b"] : List String).length ∧
    fetchPagesLoop 2 [PageFetch.page ["/c"]]
        ["https://www.goodreads.com/a", "https://www.goodreads.com/b"]
      = ["https://www.goodreads.com/a", "https://www.goodreads.com/b"] :=
  ⟨by decide,
   (fetch_goodreads_urls_amended [PageFetch.page ["/c"]] 2).2.2.2.1
     ["https://www.goodreads.com/a", "https://www.goodreads.com/b"]
     [PageFetch.page ["/c"]] (by decide)⟩

/-- C3 counterexample: run on March 5 (dateutil fills missing month and day
from the current date), the publication text "Published 1996" extracts to
"1996-03-05", not "1996-01-01". -/
theorem extract_publication_date_cex :
    extract_publication_date 3 5 (some "Published 1996") = "1996-03-05" ∧
    ("1996-03-05" : String) ≠ "1996-01-01" := by
  constructor <;> decide

/-- C3 amended: "First published March 3, 1996" extracts to "1996-03-03" on
any run date; the three patterns Month Day Year, Month Year, Year are tried
in that order and the first match is normalized to YYYY-MM-DD; no match and a
failed parse (unknown month name) both yield "N/A"; but for "Published 1996"
dateutil fills the missing month and day from the CURRENT date, so the result
is "1996-MM-DD" for the current month and day — it equals "1996-01-01" only
on January 1. -/
theorem extract_publication_date_amended (tm td : Nat)
    (hm : 1 ≤ tm ∧ tm ≤ 12) (hd : 1 ≤ td ∧ td ≤ 28) :
    extract_publication_date tm td (some "First published March 3, 1996")
        = "1996-03-03" ∧
    extract_publication_date tm td (some "Published 1996")
        = "1996-" ++ pad2 tm ++ "-" ++ pad2 td ∧
    extract_publication_date tm td (some "First published March 1996")
        = "1996-03-" ++ pad2 td ∧
    extract_publication_date tm td none = "N/A" ∧
    extract_publication_date tm td (some "no publication info") = "N/A" ∧
    extract_publication_date tm td (some "Published Foobar 3, 1996") = "N/A" := by
  have h28 : 28 ≤ daysInMonth 1996 tm := by
    unfold daysInMonth
    split
    · decide
    · split <;> decide
  refine ⟨rfl, ?_, ?_, rfl, rfl, rfl⟩
  · have hparse : dateParse tm td "1996" = some (1996, tm, td) := by
      rw [show dateParse tm td "1996"
          = (if 1 ≤ (1996 : Nat) ∧ (1996 : Nat) ≤ 9999 ∧ 1 ≤ tm ∧ tm ≤ 12
                ∧ 1 ≤ td ∧ td ≤ daysInMonth 1996 tm
              then some ((1996 : Nat), tm, td) else none) from rfl]
      rw [if_pos ⟨by norm_num, by norm_num, hm.1, hm.2, hd.1, le_trans hd.2 h28⟩]
    have hred : extract_publication_date tm td (some "Published 1996")
        = formatParsed tm td "1996" := rfl
    rw [hred]
    unfold formatParsed
    rw [hparse]
    rfl
  · have hparse : dateParse tm td "March 1996" = some (1996, 3, td) := by
      rw [show dateParse tm td "March 1996"
          = (if 1 ≤ (1996 : Nat) ∧ (1996 : Nat) ≤ 9999
                ∧ 1 ≤ td ∧ td ≤ daysInMonth 1996 3
              then some ((1996 : Nat), 3, td) else none) from rfl]
      rw [if_pos ⟨by norm_num, by norm_num, hd.1, le_trans hd.2 (by decide)⟩]
    have hred : extract_publication_date tm td (some "First published March 1996")
        = formatParsed tm td "March 1996" := rfl
    rw [hred]
    unfold formatParsed
    rw [hparse]
    rfl

/-- C3 witness: the amended statement on January 1, where the year-only text
does extract to "1996-01-01". -/
theorem extract_publication_date_amended_witness :
    ((1 : Nat) ≤ 1 ∧ (1 : Nat) ≤ 12) ∧ ((1 : Nat) ≤ 1 ∧ (1 : Nat) ≤ 28) ∧
    extract_publication_date 1 1 (some "Published 1996")
      = "1996-" ++ pad2 1 ++ "-" ++ pad2 1 :=
  ⟨⟨by decide, by decide⟩, ⟨by decide, by decide⟩,
   (extract_publication_date_amended 1 1 ⟨by decide, by decide⟩
     ⟨by decide, by decide⟩).2.1⟩

/-- C1 witness: on a batch with a duplicated title, the kept record with title
"a" is the first input record bearing that title. -/
theorem remove_duplicates_dedup_spec_witness :
    ([(⟨"a", 1⟩ : Book), ⟨"b", 2⟩, ⟨"a", 3⟩].find?
        (fun x => x.title == (⟨"a", 1⟩ : Book).title)) = some ⟨"a", 1⟩ :=
  (remove_duplicates_dedup_spec [⟨"a", 1⟩, ⟨"b", 2⟩, ⟨"a", 3⟩]).2.2.2
    ⟨"a", 1⟩ (by decide)

/-- `Char.ofNat` inverts `Char.toNat`. -/
theorem char_ofNat_toNat (c : Char) : Char.ofNat c.toNat = c := by
  unfold Char.ofNat
  rw [dif_pos (show c.toNat.isValidChar from c.valid)]
  unfold Char.ofNatAux
  apply Char.eq_of_val_eq
  apply UInt32.eq_of_toBitVec_eq
  apply BitVec.eq_of_toNat_eq
  rfl

/-- `hexVal` inverts `hexDigit` below 16. -/
theorem hexVal_hexDigit (m : Nat) (h : m < 16) : hexVal (hexDigit m) = some m := by
  interval_cases m <;> decide

/-- Hexadecimal digits are always-safe characters. -/
theorem hexDigit_safe (m : Nat) (h : m < 16) : isQuoteSafe (hexDigit m) = true := by
  interval_cases m <;> decide

/-- Always-safe characters are none of the structural characters of a query
string. -/
theorem safe_ne_special (c : Char) (h : isQuoteSafe c = true) :
    c ≠ '%' ∧ c ≠ '+' ∧ c ≠ '&' ∧ c ≠ '=' ∧ c ≠ ' ' := by
  refine ⟨?_, ?_, ?_, ?_, ?_⟩ <;>
    (intro he; rw [he] at h; exact absurd h (by decide))

/-- `splitSep` always yields at least one chunk. -/
theorem splitSep_ne_nil (p : Char → Bool) (cs : List Char) : splitSep p cs ≠ [] := by
  cases cs with
  | nil => simp [splitSep]
  | cons c rest =>
      simp only [splitSep]
      by_cases hp : p c = true
      · simp [hp]
      · simp only [hp, Bool.false_eq_true, if_false]
        cases h : splitSep p rest <;> simp

/-- `splitSep` can always be destructured. -/
theorem splitSep_dest (p : Char → Bool) (cs : List Char) :
    ∃ t ts, splitSep p cs = t :: ts := by
  cases h : splitSep p cs with
  | nil => exact absurd h (splitSep_ne_nil p cs)
  | cons t ts => exact ⟨t, ts, rfl⟩

/-- A separator character opens a fresh chunk. -/
theorem splitSep_cons_pos (p : Char → Bool) (c : Char) (cs : List Char)
    (h : p c = true) : splitSep p (c :: cs) = [] :: splitSep p cs := by
  simp only [splitSep, h, if_true]

/-- A non-separator character extends the first chunk. -/
theorem splitSep_cons_neg (p : Char → Bool) (c : Char) (cs t : List Char)
    (ts : List (List Char)) (h : p c = false) (h2 : splitSep p cs = t :: ts) :
    splitSep p (c :: cs) = (c :: t) :: ts := by
  simp only [splitSep, h, Bool.false_eq_true, if_false, h2]

/-- `percentDecode` through its split-on-percent form. -/
theorem percentDecode_eq (cs t : List Char) (ts : List (List Char))
    (h : splitSep (fun c => decide (c = '%')) cs = t :: ts) :
    percentDecode cs = t ++ (ts.map decodeSeg).flatten := by
  unfold percentDecode
  rw [h]

/-- A non-percent head passes through `percentDecode`. -/
theorem percentDecode_cons_ne (c : Char) (cs : List Char) (h : ¬ c = '%') :
    percentDecode (c :: cs) = c :: percentDecode cs := by
  obtain ⟨t, ts, h2⟩ := splitSep_dest (fun c => decide (c = '%')) cs
  rw [percentDecode_eq (c :: cs) (c :: t) ts
      (splitSep_cons_neg _ _ _ _ _ (decide_eq_false h) h2),
    percentDecode_eq cs t ts h2, List.cons_append]

/-- A valid escape decodes to its byte. -/
theorem percentDecode_esc (a b : Char) (ha hb : Nat) (cs : List Char)
    (hA : hexVal a = some ha) (hB : hexVal b = some hb)
    (hna : ¬ a = '%') (hnb : ¬ b = '%') :
    percentDecode ('%' :: a :: b :: cs)
      = Char.ofNat (16 * ha + hb) :: percentDecode cs := by
  obtain ⟨t, ts, h2⟩ := splitSep_dest (fun c => decide (c = '%')) cs
  have h3 : splitSep (fun c => decide (c = '%')) (b :: cs) = (b :: t) :: ts :=
    splitSep_cons_neg _ _ _ _ _ (decide_eq_false hnb) h2
  have h4 : splitSep (fun c => decide (c = '%')) (a :: b :: cs)
      = (a :: b :: t) :: ts :=
    splitSep_cons_neg _ _ _ _ _ (decide_eq_false hna) h3
  have h5 : splitSep (fun c => decide (c = '%')) ('%' :: a :: b :: cs)
      = [] :: (a :: b :: t) :: ts := by
    rw [splitSep_cons_pos _ _ _ (by decide), h4]
  rw [percentDecode_eq _ _ _ h5, percentDecode_eq cs t ts h2]
  simp only [List.map_cons, List.flatten_cons, List.nil_append]
  rw [show decodeSeg (a :: b :: t) = Char.ofNat (16 * ha + hb) :: t by
    show (match hexVal a, hexVal b with
      | some x, some y => Char.ofNat (16 * x + y) :: t
      | _, _ => '%' :: a :: b :: t) = Char.ofNat (16 * ha + hb) :: t
    rw [hA, hB]]
  simp

/-- Decoding one encoded character recovers it (ASCII characters, where the
byte-wise escape model is exact). -/
theorem unquote_quote_cons (c : Char) (r : List Char) (h : c.toNat < 128) :
    unquoteL (quotePlusChar c ++ r) = c :: unquoteL r := by
  by_cases hsafe : isQuoteSafe c = true
  · obtain ⟨hp, hplus, _, _, _⟩ := safe_ne_special c hsafe
    rw [show quotePlusChar c = [c] from by unfold quotePlusChar; rw [if_pos hsafe]]
    unfold unquoteL
    rw [List.singleton_append]
    rw [show plusToSpace (c :: r) = c :: plusToSpace r from by
      unfold plusToSpace; rw [List.map_cons, if_neg hplus]]
    exact percentDecode_cons_ne c _ hp
  · by_cases hsp : c = ' '
    · subst hsp
      rw [show quotePlusChar ' ' = ['+'] from by
        unfold quotePlusChar; rw [if_neg (by decide), if_pos rfl]]
      unfold unquoteL
      rw [List.singleton_append]
      rw [show plusToSpace ('+' :: r) = ' ' :: plusToSpace r from by
        unfold plusToSpace; rw [List.map_cons, if_pos rfl]]
      exact percentDecode_cons_ne ' ' _ (by decide)
    · have hq : quoteBytes c = [c.toNat] := by
        unfold quoteBytes; rw [if_pos h]
      have henc : quotePlusChar c
          = ['%', hexDigit (c.toNat / 16), hexDigit (c.toNat % 16)] := by
        unfold quotePlusChar
        rw [if_neg hsafe, if_neg hsp, hq]
        rfl
      have hd16 : c.toNat / 16 < 16 := Nat.div_lt_of_lt_mul (by omega)
      have hm16 : c.toNat % 16 < 16 := Nat.mod_lt _ (by norm_num)
      obtain ⟨h1p, h1plus, _, _, _⟩ := safe_ne_special _ (hexDigit_safe _ hd16)
      obtain ⟨h2p, h2plus, _, _, _⟩ := safe_ne_special _ (hexDigit_safe _ hm16)
      rw [henc]
      unfold unquoteL
      simp only [List.cons_append, List.nil_append]
      rw [show plusToSpace ('%' :: hexDigit (c.toNat / 16) :: hexDigit (c.toNat % 16) :: r)
          = '%' :: hexDigit (c.toNat / 16) :: hexDigit (c.toNat % 16) :: plusToSpace r from by
        unfold plusToSpace
        rw [List.map_cons, List.map_cons, List.map_cons, if_neg (by decide),
          if_neg h1plus, if_neg h2plus]]
      rw [percentDecode_esc _ _ _ _ _ (hexVal_hexDigit _ hd16) (hexVal_hexDigit _ hm16)
        h1p h2p]
      rw [Nat.div_add_mod, char_ofNat_toNat]

/-- `unquote_plus` inverts `quote_plus` on ASCII text. -/
theorem unquote_quote (cs : List Char) (h : ∀ c ∈ cs, c.toNat < 128) :
    unquoteL (quoteL cs) = cs := by
  induction cs with
  | nil => rfl
  | cons c rest ih =>
      rw [show quoteL (c :: rest) = quotePlusChar c ++ quoteL rest from by
        unfold quoteL; rw [List.map_cons, List.flatten_cons]]
      rw [unquote_quote_cons c _ (h c (List.mem_cons_self _ _)),
        ih (fun x hx => h x (List.mem_cons_of_mem _ hx))]

/-- Every byte `quote` emits fits in one `%XX` escape. -/
theorem quoteBytes_lt (c : Char) : ∀ b ∈ quoteBytes c, b < 256 := by
  intro b hb
  have hv : c.toNat < 1114112 := by
    show c.val.toNat < 1114112
    have h := c.valid
    rcases h with h | ⟨_, h2⟩ <;> omega
  unfold quoteBytes at hb
  by_cases h1 : c.toNat < 128
  · rw [if_pos h1] at hb
    simp at hb
    omega
  · rw [if_neg h1] at hb
    by_cases h2 : c.toNat < 2048
    · rw [if_pos h2] at hb
      have hd : c.toNat / 64 < 32 := Nat.div_lt_of_lt_mul (by omega)
      have hm : c.toNat % 64 < 64 := Nat.mod_lt _ (by norm_num)
      simp at hb
      rcases hb with hb | hb <;> omega
    · rw [if_neg h2] at hb
      by_cases h3 : c.toNat < 65536
      · rw [if_pos h3] at hb
        have hd : c.toNat / 4096 < 16 := Nat.div_lt_of_lt_mul (by omega)
        have hm1 : c.toNat / 64 % 64 < 64 := Nat.mod_lt _ (by norm_num)
        have hm2 : c.toNat % 64 < 64 := Nat.mod_lt _ (by norm_num)
        simp at hb
        rcases hb with hb | hb | hb <;> omega
      · rw [if_neg h3] at hb
        have hd : c.toNat / 262144 < 16 := Nat.div_lt_of_lt_mul (by omega)
        have hm1 : c.toNat / 4096 % 64 < 64 := Nat.mod_lt _ (by norm_num)
        have hm2 : c.toNat / 64 % 64 < 64 := Nat.mod_lt _ (by norm_num)
        have hm3 : c.toNat % 64 < 64 := Nat.mod_lt _ (by norm_num)
        simp at hb
        rcases hb with hb | hb | hb | hb <;> omega

/-- `quote` never emits an empty byte list. -/
theorem quoteBytes_ne_nil (c : Char) : quoteBytes c ≠ [] := by
  unfold quoteBytes
  split <;> try simp
  split <;> try simp
  split <;> simp

/-- Shape of the characters of a percent-escape run. -/
theorem mem_escape_chars (bs : List Nat) (x : Char)
    (hx : x ∈ bs.foldr (fun b acc => '%' :: hexDigit (b / 16) :: hexDigit (b % 16) :: acc) []) :
    x = '%' ∨ ∃ b ∈ bs, x = hexDigit (b / 16) ∨ x = hexDigit (b % 16) := by
  induction bs with
  | nil => simp at hx
  | cons b rest ih =>
      simp only [List.foldr_cons] at hx
      rcases List.mem_cons.mp hx with h | hx2
      · exact Or.inl h
      rcases List.mem_cons.mp hx2 with h | hx3
      · exact Or.inr ⟨b, List.mem_cons_self _ _, Or.inl h⟩
      rcases List.mem_cons.mp hx3 with h | hx4
      · exact Or.inr ⟨b, List.mem_cons_self _ _, Or.inr h⟩
      · rcases ih hx4 with h | ⟨b2, hb2, h⟩
        · exact Or.inl h
        · exact Or.inr ⟨b2, List.mem_cons_of_mem _ hb2, h⟩

/-- `quote_plus` output never contains the field and pair separators. -/
theorem quotePlusChar_no_special (c : Char) :
    ∀ x ∈ quotePlusChar c, x ≠ '&' ∧ x ≠ '=' := by
  intro x hx
  unfold quotePlusChar at hx
  by_cases hsafe : isQuoteSafe c = true
  · rw [if_pos hsafe] at hx
    simp at hx
    subst hx
    obtain ⟨_, _, hamp, heq, _⟩ := safe_ne_special x hsafe
    exact ⟨hamp, heq⟩
  · rw [if_neg hsafe] at hx
    by_cases hsp : c = ' '
    · rw [if_pos hsp] at hx
      simp at hx
      subst hx
      exact ⟨by decide, by decide⟩
    · rw [if_neg hsp] at hx
      rcases mem_escape_chars _ _ hx with h | ⟨b, hb, h⟩
      · subst h
        exact ⟨by decide, by decide⟩
      · have hblt : b < 256 := quoteBytes_lt c b hb
        have h16a : b / 16 < 16 := Nat.div_lt_of_lt_mul (by omega)
        have h16b : b % 16 < 16 := Nat.mod_lt _ (by norm_num)
        rcases h with h | h <;> subst h
        · obtain ⟨_, _, hamp, heq, _⟩ := safe_ne_special _ (hexDigit_safe _ h16a)
          exact ⟨hamp, heq⟩
        · obtain ⟨_, _, hamp, heq, _⟩ := safe_ne_special _ (hexDigit_safe _ h16b)
          exact ⟨hamp, heq⟩

/-- `quote_plus` of a character is never empty. -/
theorem quotePlusChar_ne_nil (c : Char) : quotePlusChar c ≠ [] := by
  unfold quotePlusChar
  by_cases hsafe : isQuoteSafe c = true
  · rw [if_pos hsafe]; simp
  · rw [if_neg hsafe]
    by_cases hsp : c = ' '
    · rw [if_pos hsp]; simp
    · rw [if_neg hsp]
      cases hq : quoteBytes c with
      | nil => exact absurd hq (quoteBytes_ne_nil c)
      | cons b rest => simp [List.foldr_cons]

/-- `quote_plus` of a string never contains `&` or `=`. -/
theorem quoteL_no_special (cs : List Char) :
    ∀ x ∈ quoteL cs, x ≠ '&' ∧ x ≠ '=' := by
  intro x hx
  unfold quoteL at hx
  obtain ⟨l, hl, hxl⟩ := List.mem_flatten.mp hx
  obtain ⟨c2, hc2, heq⟩ := List.mem_map.mp hl
  subst heq
  exact quotePlusChar_no_special c2 x hxl

/-- `quote_plus` of a non-empty string is non-empty. -/
theorem quoteL_ne_nil (cs : List Char) (h : cs ≠ []) : quoteL cs ≠ [] := by
  cases cs with
  | nil => exact absurd rfl h
  | cons c rest =>
      unfold quoteL
      rw [List.map_cons, List.flatten_cons]
      cases hq : quotePlusChar c with
      | nil => exact absurd hq (quotePlusChar_ne_nil c)
      | cons x xs => simp

/-- `split('=', 1)` around an `=`-free name. -/
theorem splitFirstEq_append (a b : List Char) (h : '=' ∉ a) :
    splitFirstEq (a ++ '=' :: b) = some (a, b) := by
  induction a with
  | nil =>
      simp [splitFirstEq]
  | cons c cs ih =>
      have hc : ¬ c = '=' := fun he => h (he ▸ List.mem_cons_self _ _)
      rw [List.cons_append]
      simp only [splitFirstEq, hc, if_false]
      rw [ih (fun hm => h (List.mem_cons_of_mem _ hm))]
      rfl

/-- Rebuilding a string from its characters. -/
theorem mk_toList (s : String) : String.mk s.toList = s := rfl

/-- A non-empty string has a non-empty character list. -/
theorem toList_ne_nil (s : String) (h : s ≠ "") : s.toList ≠ [] := by
  intro hl
  apply h
  cases s with
  | mk data =>
      simp only [String.toList] at hl
      rw [show data = [] from hl]

/-- A non-empty character list makes a non-empty string. -/
theorem mk_ne_empty (l : List Char) (h : l ≠ []) : String.mk l ≠ "" := by
  intro he
  exact h (congrArg String.data he)

/-- `decodeSeg` always emits at least one character. -/
theorem decodeSeg_ne_nil (seg : List Char) : decodeSeg seg ≠ [] := by
  cases seg with
  | nil => simp [decodeSeg]
  | cons a s2 =>
      cases s2 with
      | nil => simp [decodeSeg]
      | cons b rest =>
          simp only [decodeSeg]
          cases hexVal a <;> cases hexVal b <;> simp

/-- `unquote_plus` of a non-empty string is non-empty. -/
theorem unquoteL_ne_nil (cs : List Char) (h : cs ≠ []) : unquoteL cs ≠ [] := by
  cases cs with
  | nil => exact absurd rfl h
  | cons c rest =>
      unfold unquoteL
      rw [show plusToSpace (c :: rest) = (if c = '+' then ' ' else c) :: plusToSpace rest
        from by unfold plusToSpace; rw [List.map_cons]]
      by_cases hp : (if c = '+' then ' ' else c) = '%'
      · rw [hp]
        obtain ⟨t, ts, h2⟩ :=
          splitSep_dest (fun c => decide (c = '%')) (plusToSpace rest)
        rw [percentDecode_eq _ _ _
          (by rw [splitSep_cons_pos _ _ _ (by decide), h2])]
        simp only [List.nil_append, List.map_cons, List.flatten_cons]
        cases ht : decodeSeg t with
        | nil => exact absurd ht (decodeSeg_ne_nil t)
        | cons x xs => simp [ht]
      · rw [percentDecode_cons_ne _ _ hp]
        simp

/-- `parse_qsl` recovers an encoded name/value field exactly (ASCII name and
value, value non-blank). -/
theorem parseField_encoded (k v : String) (hk : asciiStr k) (hv : asciiStr v)
    (hvne : v ≠ "") :
    parseField (quoteL k.toList ++ '=' :: quoteL v.toList) = some (k, v) := by
  unfold parseField
  rw [splitFirstEq_append _ _ (fun hm => ((quoteL_no_special k.toList '=' hm).2) rfl)]
  have hq : quoteL v.toList ≠ [] := quoteL_ne_nil _ (toList_ne_nil v hvne)
  have hq2 : (quoteL v.toList).isEmpty = false := by
    cases hq3 : quoteL v.toList with
    | nil => exact absurd hq3 hq
    | cons x xs => rfl
  simp only [hq2, Bool.false_eq_true, if_false]
  rw [unquote_quote _ hk, unquote_quote _ hv, mk_toList, mk_toList]

/-- An `&`-free chunk splits to itself. -/
theorem splitSep_no_amp (f : List Char) (h : ∀ c ∈ f, ¬ c = '&') :
    splitSep (fun c => decide (c = '&')) f = [f] := by
  induction f with
  | nil => rfl
  | cons c cs ih =>
      exact splitSep_cons_neg _ c cs cs []
        (decide_eq_false (h c (List.mem_cons_self _ _)))
        (ih fun x hx => h x (List.mem_cons_of_mem _ hx))

/-- Splitting after an `&`-free chunk. -/
theorem splitSep_append_amp_free (f cs t : List Char) (ts : List (List Char))
    (hf : ∀ c ∈ f, ¬ c = '&')
    (h2 : splitSep (fun c => decide (c = '&')) cs = t :: ts) :
    splitSep (fun c => decide (c = '&')) (f ++ cs) = (f ++ t) :: ts := by
  induction f with
  | nil => simpa using h2
  | cons c f2 ih =>
      rw [List.cons_append]
      rw [splitSep_cons_neg _ _ _ _ _
        (decide_eq_false (hf c (List.mem_cons_self _ _)))
        (ih fun x hx => hf x (List.mem_cons_of_mem _ hx))]
      rfl

/-- Splitting on `&` inverts joining with `&` for non-empty `&`-free
fields. -/
theorem splitSep_joinSep (fields : List (List Char)) (hne : fields ≠ [])
    (h : ∀ f ∈ fields, ∀ c ∈ f, ¬ c = '&') :
    splitSep (fun c => decide (c = '&')) (joinSep '&' fields) = fields := by
  induction fields with
  | nil => exact absurd rfl hne
  | cons f rest ih =>
      cases rest with
      | nil =>
          rw [show joinSep '&' [f] = f from rfl]
          exact splitSep_no_amp f (h f (List.mem_cons_self _ _))
      | cons g rest2 =>
          rw [show joinSep '&' (f :: g :: rest2)
              = f ++ '&' :: joinSep '&' (g :: rest2) from rfl]
          have hrec := ih (by simp) (fun x hx => h x (List.mem_cons_of_mem _ hx))
          rw [splitSep_append_amp_free f _ [] (g :: rest2)
            (h f (List.mem_cons_self _ _))
            (by rw [splitSep_cons_pos _ _ _ (by decide), hrec])]
          simp

/-- A `filterMap` that always succeeds is a `map`. -/
theorem filterMap_all_some {α β : Type} (l : List α) (g : α → Option β) (f : α → β)
    (h : ∀ x ∈ l, g x = some (f x)) : l.filterMap g = l.map f := by
  induction l with
  | nil => rfl
  | cons a rest ih =>
      rw [List.filterMap_cons, h a (List.mem_cons_self _ _), List.map_cons,
        ih (fun x hx => h x (List.mem_cons_of_mem _ hx))]

/-- Parsing the encoded fields of a parameter list recovers its name/value
pairs. -/
theorem encoded_pairs (ps : List (String × List String))
    (hbl : ∀ p ∈ ps, ∀ v ∈ p.2, v ≠ "") (hascii : asciiParams ps) :
    ((ps.map fun p => p.2.map fun v =>
        quoteL p.1.toList ++ '=' :: quoteL v.toList).flatten).filterMap parseField
      = (ps.map fun p => p.2.map fun v => (p.1, v)).flatten := by
  induction ps with
  | nil => rfl
  | cons p rest ih =>
      simp only [List.map_cons, List.flatten_cons, List.filterMap_append]
      have hgrp : (p.2.map (fun v => quoteL p.1.toList ++ '=' :: quoteL v.toList)).filterMap
          parseField = p.2.map (fun v => (p.1, v)) := by
        rw [List.filterMap_map]
        exact filterMap_all_some p.2 _ _ (fun v hv =>
          parseField_encoded p.1 v ((hascii p (List.mem_cons_self _ _)).1)
            ((hascii p (List.mem_cons_self _ _)).2 v hv)
            (hbl p (List.mem_cons_self _ _) v hv))
      rw [hgrp, ih (fun q hq => hbl q (List.mem_cons_of_mem _ hq))
        (fun q hq => hascii q (List.mem_cons_of_mem _ hq))]

/-- Extending values of a key absent from the list changes nothing. -/
theorem map_extend_of_no_key (q : List (String × List String)) (k : String) (v : String)
    (h : q.any (fun p => decide (p.1 = k)) = false) :
    q.map (fun p => if p.1 = k then (p.1, p.2 ++ [v]) else p) = q := by
  induction q with
  | nil => rfl
  | cons p rest ih =>
      simp only [List.any_cons, Bool.or_eq_false_iff] at h
      rw [List.map_cons, if_neg (by simpa using h.1), ih h.2]

/-- Folding further values of the last key extends its value list. -/
theorem insert_fold_extend (k : String) (vs : List String)
    (acc : List (String × List String)) (ws : List String)
    (hacc : acc.any (fun p => decide (p.1 = k)) = false) :
    (vs.map (fun v => (k, v))).foldl (fun a kv => insertParam a kv.1 kv.2)
        (acc ++ [(k, ws)])
      = acc ++ [(k, ws ++ vs)] := by
  induction vs generalizing ws with
  | nil => simp
  | cons v vs2 ih =>
      rw [List.map_cons, List.foldl_cons]
      have hany : ((acc ++ [(k, ws)]).any fun p => decide (p.1 = k)) = true := by
        rw [List.any_append]
        simp
      have hins : insertParam (acc ++ [(k, ws)]) k v = acc ++ [(k, ws ++ [v])] := by
        unfold insertParam
        rw [if_pos hany, List.map_append, map_extend_of_no_key acc k v hacc]
        simp
      rw [hins, ih (ws ++ [v])]
      simp

/-- Folding the flattened name/value pairs of well-formed parameters groups
them back. -/
theorem insert_fold_groups (ps : List (String × List String))
    (acc : List (String × List String))
    (hkeys : ∀ p ∈ ps, acc.any (fun q => decide (q.1 = p.1)) = false)
    (hnodup : (ps.map Prod.fst).Nodup)
    (hvs : ∀ p ∈ ps, p.2 ≠ []) :
    ((ps.map (fun p => p.2.map (fun v => (p.1, v)))).flatten).foldl
        (fun a kv => insertParam a kv.1 kv.2) acc
      = acc ++ ps := by
  induction ps generalizing acc with
  | nil => simp
  | cons p rest ih =>
      obtain ⟨k, vs⟩ := p
      simp only [List.map_cons, List.flatten_cons, List.foldl_append]
      simp only [List.map_cons, List.nodup_cons] at hnodup
      cases vs with
      | nil => exact absurd rfl (hvs (k, []) (List.mem_cons_self _ _))
      | cons v vs2 =>
          rw [List.map_cons, List.foldl_cons]
          have hk : acc.any (fun q => decide (q.1 = k)) = false :=
            hkeys (k, v :: vs2) (List.mem_cons_self _ _)
          have hins : insertParam acc k v = acc ++ [(k, [v])] := by
            unfold insertParam
            rw [if_neg (by simp [hk])]
          rw [hins, insert_fold_extend k vs2 acc [v] hk]
          have hkeys2 : ∀ p ∈ rest,
              (acc ++ [(k, [v] ++ vs2)]).any (fun q => decide (q.1 = p.1)) = false := by
            intro p hp
            rw [List.any_append]
            simp only [Bool.or_eq_false_iff]
            refine ⟨hkeys p (List.mem_cons_of_mem _ hp), ?_⟩
            have hne : p.1 ≠ k := by
              intro he
              exact hnodup.1 (he ▸ List.mem_map_of_mem Prod.fst hp)
            simp [Ne.symm hne]
          rw [ih (acc ++ [(k, [v] ++ vs2)]) hkeys2 hnodup.2
            (fun p hp => hvs p (List.mem_cons_of_mem _ hp))]
          simp

/-- Characters of a string rebuilt from a list. -/
theorem toList_of_mk (l : List Char) : (String.mk l).toList = l := rfl

/-- An `any`-miss means the key is absent. -/
theorem key_not_mem_of_any_false (q : List (String × List String)) (k : String)
    (h : (q.any fun p => decide (p.1 = k)) = false) : k ∉ q.map Prod.fst := by
  intro hmem
  obtain ⟨p, hp, heq⟩ := List.mem_map.mp hmem
  simp only [List.any_eq_false, decide_eq_true_eq] at h
  exact h p hp heq

/-- Extending a value list does not change the keys. -/
theorem map_fst_extend (q : List (String × List String)) (k : String) (v : String) :
    (q.map (fun p => if p.1 = k then (p.1, p.2 ++ [v]) else p)).map Prod.fst
      = q.map Prod.fst := by
  rw [List.map_map]
  congr 1
  funext p
  by_cases hp : p.1 = k <;> simp [hp, Function.comp]

/-- Replacing a value list does not change the keys. -/
theorem map_fst_set (q : List (String × List String)) (k : String) (w : List String) :
    (q.map (fun p => if p.1 = k then (k, w) else p)).map Prod.fst = q.map Prod.fst := by
  rw [List.map_map]
  congr 1
  funext p
  by_cases hp : p.1 = k <;> simp [hp, Function.comp]

/-- `insertParam` preserves the `parse_qs` output shape. -/
theorem insertParam_good (acc : List (String × List String)) (k v : String)
    (hv : v ≠ "") (h : goodParams acc) : goodParams (insertParam acc k v) := by
  obtain ⟨hnd, hvals⟩ := h
  unfold insertParam
  by_cases hany : (acc.any fun p => decide (p.1 = k)) = true
  · rw [if_pos hany]
    refine ⟨by rw [map_fst_extend]; exact hnd, ?_⟩
    intro p hp
    obtain ⟨q, hq, heq⟩ := List.mem_map.mp hp
    by_cases hqk : q.1 = k
    · rw [if_pos hqk] at heq
      rw [← heq]
      refine ⟨by simp, ?_⟩
      intro x hx
      rcases List.mem_append.mp hx with hx | hx
      · exact (hvals q hq).2 x hx
      · simp at hx
        rw [hx]
        exact hv
    · rw [if_neg hqk] at heq
      rw [← heq]
      exact hvals q hq
  · rw [if_neg hany]
    have hany2 : (acc.any fun p => decide (p.1 = k)) = false := by
      cases hb : (acc.any fun p => decide (p.1 = k))
      · rfl
      · exact absurd hb hany
    refine ⟨?_, ?_⟩
    · rw [List.map_append]
      simp only [List.map_cons, List.map_nil]
      rw [List.nodup_append]
      refine ⟨hnd, List.nodup_singleton k, ?_⟩
      intro a ha hak
      simp at hak
      rw [hak] at ha
      exact key_not_mem_of_any_false acc k hany2 ha
    · intro p hp
      rcases List.mem_append.mp hp with hx | hx
      · exact hvals p hx
      · simp at hx
        rw [hx]
        refine ⟨by simp, ?_⟩
        intro x hxv
        simp at hxv
        rw [hxv]
        exact hv

/-- A run without blank values keeps the fold well-formed. -/
theorem fold_insert_good (pairs : List (String × String))
    (acc : List (String × List String))
    (hps : ∀ kv ∈ pairs, kv.2 ≠ "") (h : goodParams acc) :
    goodParams (pairs.foldl (fun a kv => insertParam a kv.1 kv.2) acc) := by
  induction pairs generalizing acc with
  | nil => exact h
  | cons kv rest ih =>
      rw [List.foldl_cons]
      exact ih (insertParam acc kv.1 kv.2)
        (fun x hx => hps x (List.mem_cons_of_mem _ hx))
        (insertParam_good acc kv.1 kv.2 (hps kv (List.mem_cons_self _ _)) h)

/-- A parsed field never carries a blank value. -/
theorem parseField_snd_ne (f : List Char) (kv : String × String)
    (h : parseField f = some kv) : kv.2 ≠ "" := by
  unfold parseField at h
  cases hsp : splitFirstEq f with
  | none => rw [hsp] at h; cases h
  | some nv =>
      obtain ⟨name, val⟩ := nv
      rw [hsp] at h
      have h2 : (if val.isEmpty = true then none
          else some (String.mk (unquoteL name), String.mk (unquoteL val))) = some kv := h
      by_cases he : val.isEmpty = true
      · rw [if_pos he] at h2; cases h2
      · rw [if_neg he] at h2
        have hne : val ≠ [] := by
          intro h0
          exact he (by rw [h0]; rfl)
        injection h2 with h3
        rw [← h3]
        exact mk_ne_empty _ (unquoteL_ne_nil _ hne)

/-- `parse_qs` always produces well-formed parameters. -/
theorem parse_qs_good (qs : String) : goodParams (parse_qs qs) := by
  unfold parse_qs
  refine fold_insert_good _ [] ?_ ⟨List.nodup_nil, by simp⟩
  intro kv hkv
  obtain ⟨f, _, hpf⟩ := List.mem_filterMap.mp hkv
  exact parseField_snd_ne f kv hpf

/-- `setParam` with a well-formed value keeps parameters well-formed. -/
theorem setParam_good (ps : List (String × List String)) (k : String)
    (w : List String) (hps : goodParams ps) (hw : w ≠ [])
    (hwb : ∀ v ∈ w, v ≠ "") : goodParams (setParam ps k w) := by
  obtain ⟨hnd, hvals⟩ := hps
  unfold setParam
  by_cases hany : (ps.any fun p => decide (p.1 = k)) = true
  · rw [if_pos hany]
    refine ⟨by rw [map_fst_set]; exact hnd, ?_⟩
    intro p hp
    obtain ⟨q, hq, heq⟩ := List.mem_map.mp hp
    by_cases hqk : q.1 = k
    · rw [if_pos hqk] at heq
      rw [← heq]
      exact ⟨hw, hwb⟩
    · rw [if_neg hqk] at heq
      rw [← heq]
      exact hvals q hq
  · rw [if_neg hany]
    have hany2 : (ps.any fun p => decide (p.1 = k)) = false := by
      cases hb : (ps.any fun p => decide (p.1 = k))
      · rfl
      · exact absurd hb hany
    refine ⟨?_, ?_⟩
    · rw [List.map_append]
      simp only [List.map_cons, List.map_nil]
      rw [List.nodup_append]
      refine ⟨hnd, List.nodup_singleton k, ?_⟩
      intro a ha hak
      simp at hak
      rw [hak] at ha
      exact key_not_mem_of_any_false ps k hany2 ha
    · intro p hp
      rcases List.mem_append.mp hp with hx | hx
      · exact hvals p hx
      · simp at hx
        rw [hx]
        exact ⟨hw, hwb⟩

/-- `setParam` with ASCII key and values keeps parameters ASCII. -/
theorem setParam_ascii (ps : List (String × List String)) (k : String)
    (w : List String) (h : asciiParams ps) (hk : asciiStr k)
    (hw : ∀ v ∈ w, asciiStr v) : asciiParams (setParam ps k w) := by
  unfold setParam
  by_cases hany : (ps.any fun p => decide (p.1 = k)) = true
  · rw [if_pos hany]
    intro p hp
    obtain ⟨q, hq, heq⟩ := List.mem_map.mp hp
    by_cases hqk : q.1 = k
    · rw [if_pos hqk] at heq
      rw [← heq]
      exact ⟨hk, hw⟩
    · rw [if_neg hqk] at heq
      rw [← heq]
      exact h q hq
  · rw [if_neg hany]
    intro p hp
    rcases List.mem_append.mp hp with hx | hx
    · exact h p hx
    · simp at hx
      rw [hx]
      exact ⟨hk, hw⟩

/-- Digits are ASCII and always-safe. -/
theorem digitChar_props (m : Nat) (h : m < 10) :
    (Nat.digitChar m).toNat < 128 ∧ isQuoteSafe (Nat.digitChar m) = true := by
  interval_cases m <;> exact ⟨by decide, by decide⟩

/-- All characters of a decimal rendering are ASCII and always-safe. -/
theorem toDigitsCore_props (fuel : Nat) : ∀ (n : Nat) (ds : List Char),
    (∀ c ∈ ds, c.toNat < 128 ∧ isQuoteSafe c = true) →
    ∀ c ∈ Nat.toDigitsCore 10 fuel n ds, c.toNat < 128 ∧ isQuoteSafe c = true := by
  induction fuel with
  | zero => exact fun n ds hds c hc => hds c hc
  | succ fuel ih =>
      intro n ds hds c hc
      have hc2 : c ∈ (if n / 10 = 0 then (n % 10).digitChar :: ds
          else Nat.toDigitsCore 10 fuel (n / 10) ((n % 10).digitChar :: ds)) := hc
      have hd := digitChar_props (n % 10) (Nat.mod_lt _ (by norm_num))
      by_cases h0 : n / 10 = 0
      · rw [if_pos h0] at hc2
        rcases List.mem_cons.mp hc2 with h | h
        · exact h ▸ hd
        · exact hds c h
      · rw [if_neg h0] at hc2
        refine ih (n / 10) ((n % 10).digitChar :: ds) ?_ c hc2
        intro x hx
        rcases List.mem_cons.mp hx with h | h
        · exact h ▸ hd
        · exact hds x h

/-- The decimal rendering never shrinks its accumulator. -/
theorem toDigitsCore_length (fuel : Nat) : ∀ (n : Nat) (ds : List Char),
    ds.length ≤ (Nat.toDigitsCore 10 fuel n ds).length := by
  induction fuel with
  | zero => exact fun n ds => Nat.le.refl
  | succ fuel ih =>
      intro n ds
      have he : Nat.toDigitsCore 10 (fuel + 1) n ds
          = (if n / 10 = 0 then (n % 10).digitChar :: ds
              else Nat.toDigitsCore 10 fuel (n / 10) ((n % 10).digitChar :: ds)) := rfl
      rw [he]
      by_cases h0 : n / 10 = 0
      · rw [if_pos h0]
        simp only [List.length_cons]
        omega
      · rw [if_neg h0]
        calc ds.length ≤ ((n % 10).digitChar :: ds).length := by
              simp only [List.length_cons]; omega
          _ ≤ _ := ih (n / 10) ((n % 10).digitChar :: ds)

/-- `str(page_number)` is never empty. -/
theorem toString_nat_ne (n : Nat) : toString n ≠ "" := by
  intro h
  have h2 : Nat.toDigitsCore 10 (n + 1) n [] = [] := congrArg String.data h
  have h3 : (1 : Nat) ≤ (Nat.toDigitsCore 10 (n + 1) n []).length := by
    have he : Nat.toDigitsCore 10 (n + 1) n []
        = (if n / 10 = 0 then [(n % 10).digitChar]
            else Nat.toDigitsCore 10 n (n / 10) [(n % 10).digitChar]) := rfl
    rw [he]
    by_cases h0 : n / 10 = 0
    · rw [if_pos h0]
      simp
    · rw [if_neg h0]
      have := toDigitsCore_length n (n / 10) [(n % 10).digitChar]
      simpa using this
  rw [h2] at h3
  simp at h3

/-- `str(page_number)` is ASCII, digit-safe text. -/
theorem toString_nat_props (n : Nat) :
    ∀ c ∈ (toString n).toList, c.toNat < 128 ∧ isQuoteSafe c = true :=
  fun c hc => toDigitsCore_props (n + 1) n [] (by simp) c hc

/-- Looking up the key set by `setParam` yields the new value. -/
theorem getParam_setParam_self (q : List (String × List String)) (k : String)
    (w : List String) : getParam (setParam q k w) k = some w := by
  by_cases hany : (q.any fun x => decide (x.1 = k)) = true
  · simp only [setParam, hany, if_true]
    rw [getParam_map_set]
    obtain ⟨w2, hw⟩ := getParam_isSome_of_key q k hany
    rw [hw]
    rfl
  · have hany2 : (q.any fun x => decide (x.1 = k)) = false := by
      cases hb : (q.any fun x => decide (x.1 = k))
      · rfl
      · exact absurd hb hany
    simp only [setParam, hany2, Bool.false_eq_true, if_false]
    exact getParam_append_key q k w hany2

/-- `setParam` leaves entries with other keys untouched. -/
theorem filter_setParam (q : List (String × List String)) (k : String)
    (w : List String) :
    (setParam q k w).filter (fun p => decide (p.1 ≠ k))
      = q.filter (fun p => decide (p.1 ≠ k)) := by
  by_cases hany : (q.any fun x => decide (x.1 = k)) = true
  · simp only [setParam, hany, if_true]
    exact filter_map_set q k w
  · have hany2 : (q.any fun x => decide (x.1 = k)) = false := by
      cases hb : (q.any fun x => decide (x.1 = k))
      · rfl
      · exact absurd hb hany
    simp only [setParam, hany2, Bool.false_eq_true, if_false, List.filter_append]
    simp

/-- `parse_qs` inverts `urlencode` on well-formed ASCII parameters — the
re-encoding round trip inside `update_pagination_url`. -/
theorem parse_qs_urlencode (ps : List (String × List String))
    (hgood : goodParams ps) (hascii : asciiParams ps) :
    parse_qs (urlencode ps) = ps := by
  obtain ⟨hnodup, hpv⟩ := hgood
  cases ps with
  | nil => rfl
  | cons p0 rest0 =>
      have hfne : (((p0 :: rest0).map fun p => p.2.map fun v =>
          quoteL p.1.toList ++ '=' :: quoteL v.toList).flatten) ≠ [] := by
        have h0 : p0.2 ≠ [] := (hpv p0 (List.mem_cons_self _ _)).1
        cases hv0 : p0.2 with
        | nil => exact absurd hv0 h0
        | cons v vs => simp [hv0]
      have hffree : ∀ f ∈ (((p0 :: rest0).map fun p => p.2.map fun v =>
          quoteL p.1.toList ++ '=' :: quoteL v.toList).flatten), ∀ c ∈ f, ¬ c = '&' := by
        intro f hf c hc
        obtain ⟨l, hl, hfl⟩ := List.mem_flatten.mp hf
        obtain ⟨p, hp, heq⟩ := List.mem_map.mp hl
        rw [← heq] at hfl
        obtain ⟨v, hv, heq2⟩ := List.mem_map.mp hfl
        rw [← heq2] at hc
        rcases List.mem_append.mp hc with hc2 | hc2
        · exact (quoteL_no_special _ c hc2).1
        · rcases List.mem_cons.mp hc2 with hc3 | hc3
          · rw [hc3]; decide
          · exact (quoteL_no_special _ c hc3).1
      have hstep1 : parse_qs (urlencode (p0 :: rest0))
          = ((((p0 :: rest0).map fun p => p.2.map fun v =>
              quoteL p.1.toList ++ '=' :: quoteL v.toList).flatten).filterMap
                parseField).foldl (fun a kv => insertParam a kv.1 kv.2) [] := by
        unfold parse_qs urlencode
        rw [toList_of_mk, splitSep_joinSep _ hfne hffree]
      rw [hstep1, encoded_pairs _ (fun q hq => (hpv q hq).2) hascii,
        insert_fold_groups _ [] (fun q hq => rfl) hnodup (fun q hq => (hpv q hq).1)]
      simp

/-- C9 counterexample: `parse_qs` drops the blank-valued parameter `a` of the
query string `a=&b=1` (`keep_blank_values=False`), so `update_pagination_url`
returns `b=1&page=3`: the parameter `a` of the base URL is not preserved,
refuting the claim that all other query parameters are preserved. -/
theorem update_pagination_url_cex :
    (update_pagination_url
        ⟨"https", "www.goodreads.com", "/search", "", "a=&b=1", ""⟩ 3).query
      = "b=1&page=3" ∧
    "a" ∈ queryFieldNames "a=&b=1" ∧
    "a" ∉ queryFieldNames ((update_pagination_url
        ⟨"https", "www.goodreads.com", "/search", "", "a=&b=1", ""⟩ 3).query) := by
  refine ⟨?_, ?_, ?_⟩ <;> decide

/-- C9 amended: `update_pagination_url` re-encodes the `parse_qs` view of the
query: the `page` parameter is set to the page number (overwriting any
existing value); scheme, network location, path, path parameters and fragment
pass through unchanged; the non-`page` parameters surviving `parse_qs` — a
lossy parse that drops blank-valued fields and fields without `=` — are
preserved as decoded name-to-values associations (stated for queries whose
decoded parameters are ASCII, the fragment of the quoting codec modelled
exactly); and paginating to P and then to Q equals paginating once to Q. -/
theorem update_pagination_url_amended (u : UrlParts) (pageNumber : Nat)
    (hascii : asciiParams (parse_qs u.query)) :
    parse_qs ((update_pagination_url u pageNumber).query)
        = setParam (parse_qs u.query) "page" [toString pageNumber] ∧
    getParam (parse_qs ((update_pagination_url u pageNumber).query)) "page"
        = some [toString pageNumber] ∧
    (parse_qs ((update_pagination_url u pageNumber).query)).filter
          (fun p => decide (p.1 ≠ "page"))
        = (parse_qs u.query).filter (fun p => decide (p.1 ≠ "page")) ∧
    (update_pagination_url u pageNumber).scheme = u.scheme ∧
    (update_pagination_url u pageNumber).netloc = u.netloc ∧
    (update_pagination_url u pageNumber).path = u.path ∧
    (update_pagination_url u pageNumber).pathParams = u.pathParams ∧
    (update_pagination_url u pageNumber).fragment = u.fragment ∧
    (∀ q : Nat, update_pagination_url (update_pagination_url u pageNumber) q
        = update_pagination_url u q) := by
  have hgood2 : goodParams (setParam (parse_qs u.query) "page" [toString pageNumber]) :=
    setParam_good _ _ _ (parse_qs_good u.query) (by simp)
      (by
        intro v hv
        simp at hv
        rw [hv]
        exact toString_nat_ne pageNumber)
  have hascii2 : asciiParams (setParam (parse_qs u.query) "page" [toString pageNumber]) :=
    setParam_ascii _ _ _ hascii
      (by
        intro c hc
        fin_cases hc <;> decide)
      (by
        intro v hv
        simp at hv
        rw [hv]
        intro c hc
        exact (toString_nat_props pageNumber c hc).1)
  have hmain : parse_qs ((update_pagination_url u pageNumber).query)
      = setParam (parse_qs u.query) "page" [toString pageNumber] :=
    parse_qs_urlencode _ hgood2 hascii2
  refine ⟨hmain, ?_, ?_, rfl, rfl, rfl, rfl, rfl, ?_⟩
  · rw [hmain]
    exact getParam_setParam_self _ _ _
  · rw [hmain]
    exact filter_setParam _ _ _
  · intro q
    have heq : update_pagination_url (update_pagination_url u pageNumber) q
        = { u with query := urlencode (setParam (parse_qs
            ((update_pagination_url u pageNumber).query)) "page" [toString q]) } := rfl
    rw [heq, hmain, setParam_setParam]
    rfl

/-- C9 witness: the amended statement on a shelf URL with a genre parameter
and an existing page parameter. -/
theorem update_pagination_url_amended_witness :
    asciiParams (parse_qs "genre=fantasy&page=1") ∧
    parse_qs ((update_pagination_url
        ⟨"https", "www.goodreads.com", "/shelf/show/fantasy", "",
          "genre=fantasy&page=1", ""⟩ 3).query)
      = setParam (parse_qs "genre=fantasy&page=1") "page" [toString 3] :=
  ⟨by unfold asciiParams asciiStr; decide,
   (update_pagination_url_amended
      ⟨"https", "www.goodreads.com", "/shelf/show/fantasy", "",
        "genre=fantasy&page=1", ""⟩ 3 (by unfold asciiParams asciiStr; decide)).1⟩

end GoodreadsScraper
